import Mathlib

/-!
Shallow embedding of the cleaning / classification / aggregation logic of
`main.py` (single-script EDA tool).  Tables are modelled row-major: a list
of headers (column name and pandas dtype) and a list of rows, each row a
list of cell values.  Cell values are rationals (covering int64 / float64 /
datetime contents), strings (object dtype), or the missing marker
(NaN / NaT).  Steps that can raise in pandas (KeyError on a missing column,
TypeError comparing strings to numbers, `mode()[0]` on an empty mode
series) return `Except String`.
-/

deriving instance DecidableEq for Except

/-- A cell value: a number (int/float/datetime tick), a string, or NaN/NaT. -/
inductive Val where
  | num (q : ℚ)
  | str (s : String)
  | missing
deriving DecidableEq, Repr

/-- pandas column dtypes that the script's branches distinguish. -/
inductive Dtype where
  | int64
  | float64
  | object
  | datetime64
deriving DecidableEq, Repr

/-- `df[col].dtype in ["int64", "float64"]` (main.py lines 59 and 65). -/
def Dtype.isNumeric : Dtype → Bool
  | .int64 => true
  | .float64 => true
  | _ => false

/-- A DataFrame: column headers (name, dtype) and row-major cells. -/
structure Table where
  headers : List (String × Dtype)
  rows : List (List Val)
deriving DecidableEq, Repr

/-- Rectangularity: every row has one cell per header (pandas guarantees
this for any DataFrame obtained from `read_csv`). -/
def Table.wf (t : Table) : Prop :=
  ∀ r ∈ t.rows, r.length = t.headers.length

/-- Index of the first column with the given name (`df[name]` lookup;
`read_csv` mangles duplicate names, so first match is the match). -/
def Table.colIdx (t : Table) (name : String) : Option Nat :=
  t.headers.findIdx? (fun p => p.1 == name)

/-- The cells of column `j`, top to bottom. -/
def colOf (rows : List (List Val)) (j : Nat) : List Val :=
  rows.map (fun r => r.getD j Val.missing)

/-- The one-column missing-value test NaN-fill uses. -/
def fillCell (v fill : Val) : Val :=
  if v == Val.missing then fill else v

/-- `df[col].fillna(v, inplace=True)`: replace the missing cells of column
`j` by `v`, leaving every other cell alone. -/
def fillColumn (rows : List (List Val)) (j : Nat) (v : Val) : List (List Val) :=
  rows.map (fun r => r.set j (fillCell (r.getD j Val.missing) v))

/-- Keep the rows whose mask entry is `true` (boolean indexing `df[mask]`). -/
def maskFilter {α : Type} : List Bool → List α → List α
  | true :: ks, r :: rs => r :: maskFilter ks rs
  | false :: ks, _ :: rs => maskFilter ks rs
  | _, _ => []

/-- Elementwise comparison of a column against a numeric scalar, as pandas
does it: a number is compared, NaN compares `false`, and a string raises
`TypeError` (object-dtype column holding text vs. a number). -/
def seriesCmp (f : ℚ → Bool) : List Val → Except String (List Bool)
  | [] => .ok []
  | Val.num q :: vs => do
      let bs ← seriesCmp f vs
      .ok (f q :: bs)
  | Val.missing :: vs => do
      let bs ← seriesCmp f vs
      .ok (false :: bs)
  | Val.str _ :: _ => .error "TypeError"

/-- `drop_duplicates()` (main.py line 40): drop every row equal to an
earlier row, keeping the first occurrence, in order. -/
def dedupFirst {α : Type} [BEq α] : List α → List α → List α
  | _, [] => []
  | seen, r :: rs =>
      if seen.contains r then dedupFirst seen rs
      else r :: dedupFirst (r :: seen) rs

/-- The numeric entries of a column (pandas numeric aggregations skip NaN). -/
def numsOf (cells : List Val) : List ℚ :=
  cells.filterMap (fun v => match v with | Val.num q => some q | _ => none)

/-- Insert into a sorted list (ascending by `le`). -/
def insertSorted {α : Type} (le : α → α → Bool) (x : α) : List α → List α
  | [] => [x]
  | y :: ys => if le x y then x :: y :: ys else y :: insertSorted le x ys

/-- Insertion sort, ascending by `le` (the model of pandas ascending
sorts: `Series.median`, `Series.mode`, groupby key ordering). -/
def sortBy {α : Type} (le : α → α → Bool) : List α → List α
  | [] => []
  | x :: xs => insertSorted le x (sortBy le xs)

/-- `Series.median()`: the middle of the sorted non-missing values, the
mean of the two middles on even length, `none` (NaN) on an empty column. -/
def median (l : List ℚ) : Option ℚ :=
  let s := sortBy (fun a b => decide (a ≤ b)) l
  match s.length with
  | 0 => none
  | Nat.succ _ =>
      if s.length % 2 = 1 then s.get? (s.length / 2)
      else do
        let a ← s.get? (s.length / 2 - 1)
        let b ← s.get? (s.length / 2)
        pure ((a + b) / 2)

/-- The ordering pandas sorts mode candidates by: numbers below strings,
numbers by value, strings lexicographically, missing first (missing never
occurs among mode candidates). -/
def valLe : Val → Val → Bool
  | Val.missing, _ => true
  | Val.num _, Val.missing => false
  | Val.num a, Val.num b => decide (a ≤ b)
  | Val.num _, Val.str _ => true
  | Val.str _, Val.num _ => false
  | Val.str _, Val.missing => false
  | Val.str a, Val.str b => decide (a ≤ b)

/-- `df[col].mode()[0]`: among the non-missing values, those of maximal
multiplicity, sorted ascending; the first of them.  `none` when the column
has no non-missing value (pandas then raises `KeyError: 0`). -/
def modeFirst (cells : List Val) : Option Val :=
  let nn := cells.filter (fun v => v != Val.missing)
  let maxc := (nn.map (fun v => (nn.filter (fun w => w == v)).length)).foldl max 0
  let modes := sortBy valLe (dedupFirst [] (nn.filter
      (fun v => (nn.filter (fun w => w == v)).length == maxc)))
  modes.head?

/-- The numeric value of one decimal digit character. -/
def digitVal (c : Char) : Option Nat :=
  if 48 ≤ c.toNat ∧ c.toNat ≤ 57 then some (c.toNat - 48) else none

/-- Read a decimal numeral, failing on any non-digit. -/
def digitsToNat : Nat → List Char → Option Nat
  | acc, [] => some acc
  | acc, c :: cs => match digitVal c with
      | some d => digitsToNat (acc * 10 + d) cs
      | none => none

/-- A nonempty all-digit string parses to its value; anything else fails. -/
def strToNat (s : String) : Option Nat :=
  match s.data with
  | [] => none
  | cs => digitsToNat 0 cs

/-- `pd.to_datetime(value, errors="coerce")` on one cell: numbers stand for
already-parsed timestamps, a string parses when it is a plain numeral
(standing for any well-formed date text), anything else coerces to NaT. -/
def parseDate : Val → Val
  | Val.num q => Val.num q
  | Val.str s => match strToNat s with
      | some n => Val.num (n : ℚ)
      | none => Val.missing
  | Val.missing => Val.missing

/-- `.dt.date`: the calendar date of a timestamp (its integer day). -/
def dateOf : Val → Option ℤ
  | Val.num q => some ⌊q⌋
  | _ => none

/-- main.py line 21:
`df["order_date"] = pd.to_datetime(df["order_date"], errors="coerce")`.
Reading `df["order_date"]` raises `KeyError` when the column is absent;
otherwise every cell is parsed (failures coerce to NaT, no row dropped)
and the column dtype becomes datetime64. -/
def toDatetimeCol (t : Table) : Except String Table :=
  match t.colIdx "order_date" with
  | none => .error "KeyError: order_date"
  | some j => .ok
      { headers := t.headers.set j ("order_date", Dtype.datetime64),
        rows := t.rows.map (fun r => r.set j (parseDate (r.getD j Val.missing))) }

/-- main.py line 40: `df = df.drop_duplicates()`. -/
def dropDups (t : Table) : Table :=
  { t with rows := dedupFirst [] t.rows }

/-- The three radio choices of main.py line 52. -/
inductive Strategy where
  | drop
  | fillCentral
  | fillConstant
deriving DecidableEq, Repr

/-- The fill the mean/median/mode loop (main.py lines 58-62) applies to
column `j`: the median for an int64/float64 column (`fillna(NaN)` when the
column is all-missing, a no-op), else `mode()[0]`, raising on an empty
mode series. -/
def fillValueFor (t : Table) (j : Nat) : Except String (Option Val) :=
  if (t.headers.getD j ("", Dtype.object)).2.isNumeric then
    .ok ((median (numsOf (colOf t.rows j))).map Val.num)
  else
    match modeFirst (colOf t.rows j) with
    | some m => .ok (some m)
    | none => .error "KeyError: 0"

/-- One iteration of the fill loop: apply column `j`'s planned fill (if
any; `none` is `fillna(NaN)`, a no-op) to the frame. -/
def fillStep (plan : List (Option Val)) (rs : List (List Val)) (j : Nat) : List (List Val) :=
  match plan.getD j none with
  | some v => fillColumn rs j v
  | none => rs

/-- Apply a per-column fill plan left to right.  Each loop iteration of the
source touches only its own column, so the fill value each iteration
computes from the partially-filled frame equals the one computed from the
frame the loop started from; the plan is therefore computed up front. -/
def applyFills (plan : List (Option Val)) (rows : List (List Val)) : List (List Val) :=
  (List.range plan.length).foldl (fillStep plan) rows

/-- main.py lines 55-68: the selected missing-value strategy.
Drop: `df.dropna()`.  Central fill: median / first mode per column.
Constant fill: `0` for int64/float64 columns, `"Unknown"` otherwise. -/
def handleMissing : Strategy → Table → Except String Table
  | Strategy.drop, t =>
      .ok { t with rows := t.rows.filter (fun r => !(r.contains Val.missing)) }
  | Strategy.fillCentral, t => do
      let plan ← (List.range t.headers.length).mapM (fillValueFor t)
      .ok { t with rows := applyFills plan t.rows }
  | Strategy.fillConstant, t =>
      .ok { t with rows := (applyFills
        (t.headers.map (fun p =>
          some (if p.2.isNumeric then Val.num 0 else Val.str "Unknown"))) t.rows) }

/-- main.py line 74: the mask of `(df["price"] < 0) | (df["quantity"] <= 0)`. -/
def invalidBadMask (t : Table) (jp jq : Nat) : Except String (List Bool) := do
  let m1 ← seriesCmp (fun q => decide (q < 0)) (colOf t.rows jp)
  let m2 ← seriesCmp (fun q => decide (q ≤ 0)) (colOf t.rows jq)
  .ok (List.zipWith or m1 m2)

/-- main.py line 75: the mask of `(df["price"] >= 0) & (df["quantity"] > 0)`. -/
def invalidKeepMask (t : Table) (jp jq : Nat) : Except String (List Bool) := do
  let m1 ← seriesCmp (fun q => decide (0 ≤ q)) (colOf t.rows jp)
  let m2 ← seriesCmp (fun q => decide (0 < q)) (colOf t.rows jq)
  .ok (List.zipWith and m1 m2)

/-- main.py lines 74-76: count the rows with `price < 0` or
`quantity <= 0`, then keep the rows with `price >= 0` and `quantity > 0`.
Indexing a missing `price` or `quantity` column raises `KeyError` (line 74
reads `price` first). -/
def invalidFilter (t : Table) : Except String (Table × Nat) := do
  match t.colIdx "price", t.colIdx "quantity" with
  | some jp, some jq =>
      let bad ← invalidBadMask t jp jq
      let keep ← invalidKeepMask t jp jq
      .ok ({ t with rows := maskFilter keep t.rows }, (bad.filter id).length)
  | none, _ => .error "KeyError: price"
  | _, none => .error "KeyError: quantity"

/-- The cleaning pipeline of tab 1 (main.py lines 21, 40, 55-76), in source
order: parse `order_date`, drop duplicates, handle missing values with the
chosen strategy, filter invalid rows.  Returns the cleaned table, the
duplicate count and the invalid-row count. -/
def cleanPipeline (strat : Strategy) (t : Table) : Except String (Table × Nat × Nat) := do
  let t1 ← toDatetimeCol t
  let t2 := dropDups t1
  let dupCount := t1.rows.length - t2.rows.length
  let t3 ← handleMissing strat t2
  let (t4, invCount) ← invalidFilter t3
  .ok (t4, dupCount, invCount)

/-- main.py line 84. -/
def id_cols : List String := ["order_id", "customer_id", "product_id"]

/-- main.py line 85: int64/float64 columns not in `id_cols`. -/
def numeric_cols (t : Table) : List String :=
  ((t.headers.filter (fun p => p.2.isNumeric)).map Prod.fst).filter
    (fun n => !(id_cols.contains n))

/-- main.py line 86: every object-dtype column (note: no `id_cols`
exclusion in the source). -/
def categorical_cols (t : Table) : List String :=
  (t.headers.filter (fun p => p.2 == Dtype.object)).map Prod.fst

/-- Non-null cells, in row order (`first` / `last` aggregate over these). -/
def nonNull (l : List Val) : List Val :=
  l.filter (fun v => v != Val.missing)

/-- `max` aggregation over a column slice, skipping missing. -/
def maxVal (l : List Val) : Option Val :=
  (nonNull l).foldl
    (fun acc v => match acc with
      | none => some v
      | some a => some (if valLe a v then v else a)) none

/-- `min` aggregation over a column slice, skipping missing. -/
def minVal (l : List Val) : Option Val :=
  (nonNull l).foldl
    (fun acc v => match acc with
      | none => some v
      | some a => some (if valLe v a then v else a)) none

/-- One row of the `daily` aggregate (main.py lines 142-147); `open` is a
keyword, hence the primed field name. -/
structure DailyRow where
  date : ℤ
  open' : Option Val
  high : Option Val
  low : Option Val
  close : Option Val
deriving DecidableEq, Repr

/-- The prices (in original row order) of the rows falling on day `d`. -/
def groupPrices (t : Table) (jd jp : Nat) (d : ℤ) : List Val :=
  (t.rows.filter (fun r => dateOf (r.getD jd Val.missing) == some d)).map
    (fun r => r.getD jp Val.missing)

/-- main.py lines 140-147: guarded by column presence (`none` = the
renderer's warning path), then
`df.groupby("date").agg(open=first, high=max, low=min, close=last)` on
`price`, where `date` is `.dt.date` of `order_date`.  groupby drops NaT
keys, sorts the surviving day keys ascending, and `first` / `last` take
the first / last non-null price of the group. -/
def dailyOHLC (t : Table) : Option (List DailyRow) :=
  match t.colIdx "order_date", t.colIdx "price" with
  | some jd, some jp =>
      let keys := sortBy (fun a b => decide (a ≤ b)) (dedupFirst []
        (t.rows.filterMap (fun r => dateOf (r.getD jd Val.missing))))
      some (keys.map (fun d =>
        let ps := groupPrices t jd jp d
        { date := d, open' := (nonNull ps).head?, high := maxVal ps,
          low := minVal ps, close := (nonNull ps).getLast? }))
  | _, _ => none

/-- The names of a table's columns, left to right. -/
def Table.names (t : Table) : List String := t.headers.map Prod.fst

/-- The elementwise boolean `seriesCmp` produces for one cell of a column
holding no strings: compare a number, `false` on NaN. -/
def cmpCell (f : ℚ → Bool) : Val → Bool
  | Val.num q => f q
  | _ => false

/-- A cell an int64/float64 column can hold: a number or NaN, never text. -/
def numOrMissing : Val → Bool
  | Val.str _ => false
  | _ => true

/-- Row `r'` is row `r` with some missing cells imputed: same length, every
non-missing cell unchanged (no reordering of cells, no row movement). -/
def rowFillDerived (r r' : List Val) : Prop :=
  r'.length = r.length ∧
  ∀ j, r.getD j Val.missing ≠ Val.missing → r'.getD j Val.missing = r.getD j Val.missing

/-- A concrete post-imputation table: one row whose price stayed missing
(all-missing float64 column under central-tendency fill) and whose
quantity is 1. -/
def tMissingPrice : Table :=
  { headers := [("order_date", Dtype.datetime64), ("price", Dtype.float64),
                ("quantity", Dtype.int64)],
    rows := [[Val.num 1, Val.missing, Val.num 1]] }

/-- A concrete raw table lacking the `order_date` column. -/
def tNoOrderDate : Table :=
  { headers := [("price", Dtype.float64), ("quantity", Dtype.int64)],
    rows := [[Val.num 1, Val.num 1]] }

/-- A concrete raw table lacking the `price` column. -/
def tNoPrice : Table :=
  { headers := [("order_date", Dtype.object), ("quantity", Dtype.int64)],
    rows := [[Val.str "20240101", Val.num 1]] }

/-- A concrete raw table whose non-numeric column `cat` is entirely
missing (so `mode()[0]` has nothing to return). -/
def tAllMissingCat : Table :=
  { headers := [("order_date", Dtype.float64), ("price", Dtype.float64),
                ("quantity", Dtype.int64), ("cat", Dtype.object)],
    rows := [[Val.num 1, Val.num 5, Val.num 1, Val.missing]] }

/-- A concrete table whose float64 `price` column is entirely missing:
`median()` is NaN and `fillna(NaN)` leaves the hole in place. -/
def tAllMissingPrice : Table :=
  { headers := [("order_date", Dtype.datetime64), ("price", Dtype.float64)],
    rows := [[Val.num 0, Val.missing]] }

/-- A cleaned table with a text-typed identifier column and a datetime
column, exercising the classification edge cases. -/
def tClassify : Table :=
  { headers := [("customer_id", Dtype.object), ("order_date", Dtype.datetime64),
                ("price", Dtype.float64)],
    rows := [] }

/-- Four same-day rows with prices 10, 15, 8, 12 (the OHLC example). -/
def tOhlcExample : Table :=
  { headers := [("order_date", Dtype.datetime64), ("price", Dtype.float64)],
    rows := [[Val.num 7, Val.num 10], [Val.num 7, Val.num 15],
             [Val.num 7, Val.num 8], [Val.num 7, Val.num 12]] }

/-- A raw table exercising every cleaning step at once: a duplicate row, a
missing price, a missing quantity, an unparseable date. -/
def tFull : Table :=
  { headers := [("order_date", Dtype.object), ("price", Dtype.float64),
                ("quantity", Dtype.int64), ("category", Dtype.object)],
    rows := [[Val.str "20240101", Val.num 5, Val.num 2, Val.str "a"],
             [Val.str "20240101", Val.num 5, Val.num 2, Val.str "a"],
             [Val.str "bad", Val.missing, Val.num 1, Val.str "b"],
             [Val.str "20240102", Val.num 3, Val.missing, Val.missing]] }

/-- The cleaned table the drop-strategy pipeline produces from `tFull`. -/
def tFullDropRes : Table :=
  { headers := [("order_date", Dtype.datetime64), ("price", Dtype.float64),
                ("quantity", Dtype.int64), ("category", Dtype.object)],
    rows := [[Val.num 20240101, Val.num 5, Val.num 2, Val.str "a"]] }

/-- A two-row table (second price missing) for order-preservation checks. -/
def tOrd : Table :=
  { headers := [("price", Dtype.float64), ("quantity", Dtype.int64)],
    rows := [[Val.num 1, Val.num 2], [Val.missing, Val.num 3]] }

/-- `tOrd` after dropping rows with missing values. -/
def tOrdDrop : Table :=
  { headers := [("price", Dtype.float64), ("quantity", Dtype.int64)],
    rows := [[Val.num 1, Val.num 2]] }

/-- `tOrd` after central-tendency fill (price median 1). -/
def tOrdCentral : Table :=
  { headers := [("price", Dtype.float64), ("quantity", Dtype.int64)],
    rows := [[Val.num 1, Val.num 2], [Val.num 1, Val.num 3]] }

/-- `tOrd` after constant fill (price 0). -/
def tOrdConst : Table :=
  { headers := [("price", Dtype.float64), ("quantity", Dtype.int64)],
    rows := [[Val.num 1, Val.num 2], [Val.num 0, Val.num 3]] }

/-- `tOrd` after invalid-row filtering (the NaN-price row is removed). -/
def tOrdInv : Table :=
  { headers := [("price", Dtype.float64), ("quantity", Dtype.int64)],
    rows := [[Val.num 1, Val.num 2]] }

/-- A table with one negative price, one valid row, one zero quantity. -/
def tC9 : Table :=
  { headers := [("price", Dtype.float64), ("quantity", Dtype.int64)],
    rows := [[Val.num (-1), Val.num 2], [Val.num 1, Val.num 2],
             [Val.num 1, Val.num 0]] }

/-- `tC9` after invalid-row filtering: only the valid middle row. -/
def tC9res : Table :=
  { headers := [("price", Dtype.float64), ("quantity", Dtype.int64)],
    rows := [[Val.num 1, Val.num 2]] }

/-- Two rows for the constant-fill asymmetry: the first has its price
missing and a positive quantity, the second a valid price and its
quantity missing. -/
def tC2 : Table :=
  { headers := [("price", Dtype.float64), ("quantity", Dtype.int64)],
    rows := [[Val.missing, Val.num 1], [Val.num 5, Val.missing]] }

/-- `tC2` after constant fill: both holes became 0. -/
def tC2f : Table :=
  { headers := [("price", Dtype.float64), ("quantity", Dtype.int64)],
    rows := [[Val.num 0, Val.num 1], [Val.num 5, Val.num 0]] }

/-- The spec's strategy-correctness example: a numeric column
[1, 2, missing, 4] plus a text column with a missing entry. -/
def tC3 : Table :=
  { headers := [("price", Dtype.float64), ("category", Dtype.object)],
    rows := [[Val.num 1, Val.str "a"], [Val.num 2, Val.missing],
             [Val.missing, Val.str "b"], [Val.num 4, Val.str "a"]] }

/-- `tC3` after central-tendency fill: the missing price became the median
2 of [1,2,4]; the missing category became the mode "a". -/
def tC3f : Table :=
  { headers := [("price", Dtype.float64), ("category", Dtype.object)],
    rows := [[Val.num 1, Val.str "a"], [Val.num 2, Val.str "a"],
             [Val.num 2, Val.str "b"], [Val.num 4, Val.str "a"]] }

/-- The expected daily aggregate of `tOhlcExample`. -/
def dOhlcRow : DailyRow :=
  { date := 7, open' := some (Val.num 10), high := some (Val.num 15),
    low := some (Val.num 8), close := some (Val.num 12) }

section HelperLemmas

theorem maskFilter_sublist {α : Type} : ∀ (ks : List Bool) (rs : List α),
    (maskFilter ks rs).Sublist rs := by
  intro ks
  induction ks with
  | nil => intro rs; cases rs <;> simp [maskFilter]
  | cons k ks ih =>
    intro rs
    cases rs with
    | nil => simp [maskFilter]
    | cons r rs =>
      cases k with
      | true => simpa [maskFilter] using (ih rs).cons₂ r
      | false => simpa [maskFilter] using (ih rs).cons r

theorem dedupFirst_sublist {α : Type} [BEq α] :
    ∀ (seen l : List α), (dedupFirst seen l).Sublist l := by
  intro seen l
  induction l generalizing seen with
  | nil => simp [dedupFirst]
  | cons r rs ih =>
    cases h : seen.contains r with
    | true =>
      simp only [dedupFirst, h, if_pos]
      exact (ih seen).cons r
    | false =>
      simp only [dedupFirst, h]
      exact (ih (r :: seen)).cons₂ r

theorem contains_eq_true_iff {α : Type} [BEq α] [LawfulBEq α] (seen : List α) (r : α) :
    seen.contains r = true ↔ r ∈ seen := by
  simp [List.contains, List.elem_iff]

theorem dedupFirst_cons {α : Type} [BEq α] (seen : List α) (r : α) (rs : List α) :
    dedupFirst seen (r :: rs) =
      if seen.contains r then dedupFirst seen rs else r :: dedupFirst (r :: seen) rs := rfl

theorem mem_dedupFirst {α : Type} [BEq α] [LawfulBEq α] :
    ∀ (seen l : List α) (x : α), x ∈ dedupFirst seen l ↔ (x ∈ l ∧ x ∉ seen) := by
  intro seen l
  induction l generalizing seen with
  | nil => simp [dedupFirst]
  | cons r rs ih =>
    intro x
    by_cases hm : r ∈ seen
    · have h : seen.contains r = true := (contains_eq_true_iff seen r).mpr hm
      rw [dedupFirst_cons, if_pos h, ih]
      constructor
      · rintro ⟨hx, hs⟩; exact ⟨List.mem_cons_of_mem _ hx, hs⟩
      · rintro ⟨hx, hs⟩
        rcases List.mem_cons.mp hx with he | hmem
        · exact absurd (he ▸ hm) hs
        · exact ⟨hmem, hs⟩
    · have h : ¬(seen.contains r = true) := fun hc =>
        hm ((contains_eq_true_iff seen r).mp hc)
      rw [dedupFirst_cons, if_neg h]
      simp only [List.mem_cons, ih]
      constructor
      · rintro (he | ⟨hx, hs⟩)
        · subst he; exact ⟨Or.inl rfl, hm⟩
        · exact ⟨Or.inr hx, fun hmem => hs (Or.inr hmem)⟩
      · rintro ⟨he | hx, hs⟩
        · exact Or.inl he
        · by_cases hxr : x = r
          · exact Or.inl hxr
          · refine Or.inr ⟨hx, fun hmem => ?_⟩
            rcases hmem with h1 | h2
            · exact hxr h1
            · exact hs h2

theorem getD_set_ne {α : Type} (l : List α) (i j : Nat) (v d : α) (h : i ≠ j) :
    (l.set i v).getD j d = l.getD j d := by
  simp [List.getD_eq_getElem?_getD, List.getElem?_set_ne h]

theorem getD_set_self {α : Type} (l : List α) (i : Nat) (v d : α) (hi : i < l.length) :
    (l.set i v).getD i d = v := by
  simp [List.getD_eq_getElem?_getD, List.getElem?_set_self hi]

theorem getD_map_lt {α β : Type} (f : α → β) (l : List α) (i : Nat) (d : β)
    (d' : α) (hi : i < l.length) : (l.map f).getD i d = f (l.getD i d') := by
  rw [List.getD_eq_getElem?_getD, List.getElem?_map, List.getElem?_eq_getElem hi,
    List.getD_eq_getElem?_getD, List.getElem?_eq_getElem hi]
  rfl

theorem colOf_length (rows : List (List Val)) (j : Nat) :
    (colOf rows j).length = rows.length := by
  simp [colOf]

end HelperLemmas

theorem seriesCmp_ok_map (f : ℚ → Bool) :
    ∀ {cells : List Val} {m : List Bool}, seriesCmp f cells = .ok m →
      m = cells.map (cmpCell f) := by
  intro cells
  induction cells with
  | nil => intro m h; simpa [seriesCmp] using h.symm
  | cons v vs ih =>
    intro m h
    cases v with
    | num q =>
      cases hv : seriesCmp f vs with
      | ok bs =>
        simp only [seriesCmp, hv, Except.bind, bind] at h
        cases h
        simp [List.map, ih hv, cmpCell]
      | error e => simp [seriesCmp, hv, Except.bind, bind] at h
    | str s => simp [seriesCmp] at h
    | missing =>
      cases hv : seriesCmp f vs with
      | ok bs =>
        simp only [seriesCmp, hv, Except.bind, bind] at h
        cases h
        simp [List.map, ih hv, cmpCell]
      | error e => simp [seriesCmp, hv, Except.bind, bind] at h

theorem seriesCmp_ok_of_noStr (f : ℚ → Bool) :
    ∀ {cells : List Val}, (∀ v ∈ cells, numOrMissing v = true) →
      seriesCmp f cells = .ok (cells.map (cmpCell f)) := by
  intro cells
  induction cells with
  | nil => intro _; rfl
  | cons v vs ih =>
    intro h
    have hv := h v (List.mem_cons_self v vs)
    have hvs : ∀ w ∈ vs, numOrMissing w = true :=
      fun w hw => h w (List.mem_cons_of_mem _ hw)
    cases v with
    | num q => simp [seriesCmp, ih hvs, Except.bind, bind, cmpCell]
    | str s => simp [numOrMissing] at hv
    | missing => simp [seriesCmp, ih hvs, Except.bind, bind, cmpCell]

theorem colOf_fillColumn_ne (rows : List (List Val)) (j j' : Nat) (v : Val)
    (h : j ≠ j') : colOf (fillColumn rows j' v) j = colOf rows j := by
  simp only [colOf, fillColumn, List.map_map]
  apply List.map_congr_left
  intro r _
  exact getD_set_ne r j' j _ _ (fun he => h he.symm)

theorem colOf_fillColumn_self (rows : List (List Val)) (j : Nat) (v : Val)
    (hwf : ∀ r ∈ rows, j < r.length) :
    colOf (fillColumn rows j v) j = (colOf rows j).map (fun c => fillCell c v) := by
  simp only [colOf, fillColumn, List.map_map]
  apply List.map_congr_left
  intro r hr
  exact getD_set_self r j _ _ (hwf r hr)

theorem fillColumn_length (rows : List (List Val)) (j : Nat) (v : Val) :
    (fillColumn rows j v).length = rows.length := by
  simp [fillColumn]

theorem fillColumn_rowlen (rows : List (List Val)) (j : Nat) (v : Val) :
    ∀ r' ∈ fillColumn rows j v, ∃ r ∈ rows, r'.length = r.length := by
  intro r' hr'
  rcases List.mem_map.mp hr' with ⟨r, hr, he⟩
  exact ⟨r, hr, by simp [← he]⟩

theorem fillStep_colOf_ne (plan : List (Option Val)) (rs : List (List Val))
    (j k : Nat) (h : j ≠ k) : colOf (fillStep plan rs k) j = colOf rs j := by
  unfold fillStep
  cases plan.getD k none with
  | some v => exact colOf_fillColumn_ne rs j k v h
  | none => rfl

theorem fillStep_rowlen (plan : List (Option Val)) (rs : List (List Val)) (k : Nat) :
    ∀ r' ∈ fillStep plan rs k, ∃ r ∈ rs, r'.length = r.length := by
  unfold fillStep
  cases plan.getD k none with
  | some v => exact fillColumn_rowlen rs k v
  | none => exact fun r' hr' => ⟨r', hr', rfl⟩

theorem fillStep_length (plan : List (Option Val)) (rs : List (List Val)) (k : Nat) :
    (fillStep plan rs k).length = rs.length := by
  unfold fillStep
  cases plan.getD k none with
  | some v => exact fillColumn_length rs k v
  | none => rfl

theorem foldl_fillStep_rowlen (plan : List (Option Val)) :
    ∀ (js : List Nat) (rs : List (List Val)) (r' : List Val),
      r' ∈ js.foldl (fillStep plan) rs → ∃ r ∈ rs, r'.length = r.length := by
  intro js
  induction js with
  | nil => exact fun rs r' h => ⟨r', h, rfl⟩
  | cons k ks ih =>
    intro rs r' h
    rcases ih (fillStep plan rs k) r' h with ⟨r1, hr1, hlen⟩
    rcases fillStep_rowlen plan rs k r1 hr1 with ⟨r, hr, hlen'⟩
    exact ⟨r, hr, hlen.trans hlen'⟩

theorem foldl_fillStep_length (plan : List (Option Val)) :
    ∀ (js : List Nat) (rs : List (List Val)),
      (js.foldl (fillStep plan) rs).length = rs.length := by
  intro js
  induction js with
  | nil => intro rs; rfl
  | cons k ks ih =>
    intro rs
    rw [List.foldl_cons, ih, fillStep_length]

theorem foldl_fillStep_colOf_notmem (plan : List (Option Val)) :
    ∀ (js : List Nat) (rs : List (List Val)) (j : Nat), j ∉ js →
      colOf (js.foldl (fillStep plan) rs) j = colOf rs j := by
  intro js
  induction js with
  | nil => intro rs j _; rfl
  | cons k ks ih =>
    intro rs j hj
    have hk : j ≠ k := fun he => hj (he ▸ List.mem_cons_self k ks)
    have hks : j ∉ ks := fun hm => hj (List.mem_cons_of_mem _ hm)
    rw [List.foldl_cons, ih _ j hks, fillStep_colOf_ne plan rs j k hk]

theorem foldl_fillStep_colOf_mem (plan : List (Option Val)) :
    ∀ (js : List Nat) (rs : List (List Val)) (j : Nat), js.Nodup → j ∈ js →
      (∀ r ∈ rs, j < r.length) →
      colOf (js.foldl (fillStep plan) rs) j =
        (match plan.getD j none with
         | some v => (colOf rs j).map (fun c => fillCell c v)
         | none => colOf rs j) := by
  intro js
  induction js with
  | nil => intro rs j _ hj; simp at hj
  | cons k ks ih =>
    intro rs j hnd hj hwf
    rcases List.mem_cons.mp hj with he | hm
    · subst he
      have hks : j ∉ ks := (List.nodup_cons.mp hnd).1
      rw [List.foldl_cons, foldl_fillStep_colOf_notmem plan ks _ j hks]
      unfold fillStep
      cases plan.getD j none with
      | some v => exact colOf_fillColumn_self rs j v hwf
      | none => rfl
    · have hk : j ≠ k := by
        intro he
        exact (List.nodup_cons.mp hnd).1 (he ▸ hm)
      have hwf' : ∀ r ∈ fillStep plan rs k, j < r.length := by
        intro r' hr'
        rcases fillStep_rowlen plan rs k r' hr' with ⟨r, hr, hlen⟩
        exact hlen ▸ hwf r hr
      rw [List.foldl_cons, ih _ j (List.nodup_cons.mp hnd).2 hm hwf',
        fillStep_colOf_ne plan rs j k hk]

theorem applyFills_colOf (plan : List (Option Val)) (rows : List (List Val))
    (j : Nat) (hj : j < plan.length) (hwf : ∀ r ∈ rows, j < r.length) :
    colOf (applyFills plan rows) j =
      (match plan.getD j none with
       | some v => (colOf rows j).map (fun c => fillCell c v)
       | none => colOf rows j) := by
  unfold applyFills
  exact foldl_fillStep_colOf_mem plan (List.range plan.length) rows j
    (List.nodup_range plan.length) (List.mem_range.mpr hj) hwf

theorem applyFills_length (plan : List (Option Val)) (rows : List (List Val)) :
    (applyFills plan rows).length = rows.length :=
  foldl_fillStep_length plan _ rows

theorem rowFillDerived_refl (r : List Val) : rowFillDerived r r :=
  ⟨rfl, fun _ _ => rfl⟩

theorem rowFillDerived_trans {r r' r'' : List Val}
    (h1 : rowFillDerived r r') (h2 : rowFillDerived r' r'') :
    rowFillDerived r r'' := by
  refine ⟨h2.1.trans h1.1, fun j hj => ?_⟩
  have e1 := h1.2 j hj
  have e2 := h2.2 j (by rw [e1]; exact hj)
  rw [e2, e1]

theorem fillColumn_rowFillDerived (rows : List (List Val)) (j : Nat) (v : Val) :
    List.Forall₂ rowFillDerived rows (fillColumn rows j v) := by
  rw [fillColumn, List.forall₂_map_right_iff]
  rw [List.forall₂_same]
  intro r _
  refine ⟨List.length_set r j _, fun k hk => ?_⟩
  by_cases hkj : k = j
  · subst hkj
    by_cases hlen : k < r.length
    · rw [getD_set_self r k _ _ hlen]
      simp only [fillCell]
      rw [if_neg (by simpa using hk)]
    · rw [List.set_eq_of_length_le (Nat.le_of_not_lt hlen)]
  · exact getD_set_ne r j k _ _ (fun he => hkj he.symm)

theorem forall₂_rowFillDerived_trans :
    ∀ {l1 l2 l3 : List (List Val)}, List.Forall₂ rowFillDerived l1 l2 →
      List.Forall₂ rowFillDerived l2 l3 → List.Forall₂ rowFillDerived l1 l3 := by
  intro l1 l2 l3 h1 h2
  induction h1 generalizing l3 with
  | nil => cases h2; exact List.Forall₂.nil
  | cons hr hl ih =>
    cases h2 with
    | cons hr' hl' => exact List.Forall₂.cons (rowFillDerived_trans hr hr') (ih hl')

theorem forall₂_rowFillDerived_refl (l : List (List Val)) :
    List.Forall₂ rowFillDerived l l :=
  (List.forall₂_same).mpr (fun r _ => rowFillDerived_refl r)

theorem fillStep_rowFillDerived (plan : List (Option Val)) (rs : List (List Val))
    (k : Nat) : List.Forall₂ rowFillDerived rs (fillStep plan rs k) := by
  unfold fillStep
  cases plan.getD k none with
  | some v => exact fillColumn_rowFillDerived rs k v
  | none => exact forall₂_rowFillDerived_refl rs

theorem applyFills_rowFillDerived (plan : List (Option Val)) (rows : List (List Val)) :
    List.Forall₂ rowFillDerived rows (applyFills plan rows) := by
  unfold applyFills
  generalize List.range plan.length = js
  induction js generalizing rows with
  | nil => exact forall₂_rowFillDerived_refl rows
  | cons k ks ih =>
    rw [List.foldl_cons]
    exact forall₂_rowFillDerived_trans (fillStep_rowFillDerived plan rows k)
      (ih (fillStep plan rows k))

theorem mem_maskFilter_map {α : Type} (f : α → Bool) :
    ∀ (l : List α) (r : α), r ∈ maskFilter (l.map f) l → f r = true ∧ r ∈ l := by
  intro l
  induction l with
  | nil => intro r h; simp [maskFilter] at h
  | cons a l ih =>
    intro r h
    rw [List.map_cons] at h
    cases hfa : f a with
    | true =>
      rw [hfa] at h
      rcases List.mem_cons.mp h with he | hm
      · subst he; exact ⟨hfa, List.mem_cons_self _ _⟩
      · rcases ih r hm with ⟨h1, h2⟩
        exact ⟨h1, List.mem_cons_of_mem _ h2⟩
    | false =>
      rw [hfa] at h
      rcases ih r h with ⟨h1, h2⟩
      exact ⟨h1, List.mem_cons_of_mem _ h2⟩

theorem maskFilter_map_eq_filter {α : Type} (f : α → Bool) :
    ∀ (l : List α), maskFilter (l.map f) l = l.filter f := by
  intro l
  induction l with
  | nil => rfl
  | cons a l ih =>
    rw [List.map_cons]
    cases hfa : f a with
    | true => simp [maskFilter, List.filter_cons, hfa, ih]
    | false => simp [maskFilter, List.filter_cons, hfa, ih]

theorem getD_zipWith_and (a b : List Bool) (i : Nat) (hi : i < a.length)
    (hlen : a.length = b.length) :
    (List.zipWith and a b).getD i false = (a.getD i false && b.getD i false) := by
  have hib : i < b.length := hlen ▸ hi
  have hiz : i < (List.zipWith and a b).length := by
    rw [List.length_zipWith, hlen, Nat.min_self]; exact hib
  rw [List.getD_eq_getElem?_getD, List.getElem?_eq_getElem hiz,
    List.getD_eq_getElem?_getD, List.getElem?_eq_getElem hi,
    List.getD_eq_getElem?_getD, List.getElem?_eq_getElem hib]
  simp [List.getElem_zipWith]

theorem set_getD_self {α : Type} (l : List α) (j : Nat) (d : α) :
    l.set j (l.getD j d) = l := by
  induction l generalizing j with
  | nil => rfl
  | cons a l ih =>
    cases j with
    | zero => rfl
    | succ n =>
      simp only [List.getD_cons_succ, List.set_cons_succ]
      rw [ih]

theorem mapM_ok_forall₂ {α β : Type} (f : α → Except String β) :
    ∀ {l : List α} {out : List β}, l.mapM f = .ok out →
      List.Forall₂ (fun a b => f a = .ok b) l out := by
  intro l
  induction l with
  | nil =>
    intro out h
    simp only [List.mapM_nil, pure, Except.pure] at h
    cases h
    exact List.Forall₂.nil
  | cons a l ih =>
    intro out h
    rw [List.mapM_cons] at h
    cases hfa : f a with
    | error e => rw [hfa] at h; simp [Except.bind, bind] at h
    | ok b =>
      rw [hfa] at h
      cases hfl : l.mapM f with
      | error e =>
        rw [hfl] at h
        simp [Except.bind, bind] at h
      | ok bs =>
        rw [hfl] at h
        simp only [Except.bind, bind, pure, Except.pure] at h
        cases h
        exact List.Forall₂.cons hfa (ih hfl)

theorem forall₂_getD {α β : Type} {R : α → β → Prop} :
    ∀ {l1 : List α} {l2 : List β}, List.Forall₂ R l1 l2 →
      ∀ (i : Nat) (d1 : α) (d2 : β), i < l1.length → R (l1.getD i d1) (l2.getD i d2) := by
  intro l1 l2 h
  induction h with
  | nil => intro i _ _ hi; simp at hi
  | cons hr hl ih =>
    intro i d1 d2 hi
    cases i with
    | zero => simpa using hr
    | succ n =>
      simp only [List.getD_cons_succ]
      exact ih n d1 d2 (Nat.lt_of_succ_lt_succ (by simpa using hi))

theorem handleMissing_headers (s : Strategy) (t t' : Table)
    (h : handleMissing s t = .ok t') : t'.headers = t.headers := by
  cases s with
  | drop => simp only [handleMissing] at h; cases h; rfl
  | fillCentral =>
    simp only [handleMissing] at h
    cases hp : (List.range t.headers.length).mapM (fillValueFor t) with
    | error e => rw [hp] at h; simp [Except.bind, bind] at h
    | ok plan =>
      rw [hp] at h
      simp only [Except.bind, bind] at h
      cases h; rfl
  | fillConstant => simp only [handleMissing] at h; cases h; rfl

theorem colIdx_names (t : Table) (n : String) :
    t.colIdx n = t.names.findIdx? (fun m => m == n) := by
  unfold Table.colIdx Table.names
  rw [List.findIdx?_map]
  rfl

theorem colIdx_some_name (t : Table) (n : String) (j : Nat)
    (h : t.colIdx n = some j) :
    j < t.headers.length ∧ (t.headers.getD j ("", Dtype.object)).1 = n := by
  unfold Table.colIdx at h
  rcases List.findIdx?_eq_some_iff_findIdx_eq.mp h with ⟨hlt, hfi⟩
  refine ⟨hlt, ?_⟩
  have hp : (t.headers[j].1 == n) = true := by
    subst hfi
    exact List.findIdx_getElem (w := hlt)
  have : t.headers[j].1 = n := by simpa using hp
  rw [List.getD_eq_getElem?_getD, List.getElem?_eq_getElem hlt]
  simpa using this

theorem toDatetimeCol_ok_names (t t1 : Table) (h : toDatetimeCol t = .ok t1) :
    t1.names = t.names ∧ t1.rows.length = t.rows.length := by
  unfold toDatetimeCol at h
  cases hj : t.colIdx "order_date" with
  | none => rw [hj] at h; simp at h
  | some j =>
    rw [hj] at h
    cases h
    rcases colIdx_some_name t "order_date" j hj with ⟨hlt, hname⟩
    constructor
    · show (t.headers.set j ("order_date", Dtype.datetime64)).map Prod.fst = _
      rw [List.map_set]
      have : Prod.fst ("order_date", Dtype.datetime64) =
          (t.headers.map Prod.fst).getD j "" := by
        rw [List.getD_eq_getElem?_getD, List.getElem?_map,
          List.getElem?_eq_getElem hlt]
        rw [List.getD_eq_getElem?_getD, List.getElem?_eq_getElem hlt] at hname
        simpa using hname.symm
      rw [this, set_getD_self]
      rfl
    · simp

theorem invalidFilter_ok_decomp (t t' : Table) (c : Nat)
    (h : invalidFilter t = .ok (t', c)) :
    ∃ jp jq keep bad, t.colIdx "price" = some jp ∧ t.colIdx "quantity" = some jq ∧
      invalidBadMask t jp jq = .ok bad ∧ invalidKeepMask t jp jq = .ok keep ∧
      t'.headers = t.headers ∧ t'.rows = maskFilter keep t.rows ∧
      c = (bad.filter id).length := by
  unfold invalidFilter at h
  cases hp : t.colIdx "price" with
  | none => rw [hp] at h; simp at h
  | some jp =>
    cases hq : t.colIdx "quantity" with
    | none => rw [hp, hq] at h; simp at h
    | some jq =>
      rw [hp, hq] at h
      simp only at h
      cases hb : invalidBadMask t jp jq with
      | error e => rw [hb] at h; simp [Except.bind, bind] at h
      | ok bad =>
        rw [hb] at h
        simp only [Except.bind, bind] at h
        cases hk : invalidKeepMask t jp jq with
        | error e => rw [hk] at h; simp [Except.bind, bind] at h
        | ok keep =>
          rw [hk] at h
          simp only [Except.bind, bind] at h
          cases h
          exact ⟨jp, jq, keep, bad, rfl, rfl, hb, hk, rfl, rfl, rfl⟩

theorem invalidKeepMask_ok_eq (t : Table) (jp jq : Nat) (keep : List Bool)
    (h : invalidKeepMask t jp jq = .ok keep) :
    keep = t.rows.map (fun r =>
      cmpCell (fun q => decide (0 ≤ q)) (r.getD jp Val.missing) &&
      cmpCell (fun q => decide (0 < q)) (r.getD jq Val.missing)) := by
  unfold invalidKeepMask at h
  cases h1 : seriesCmp (fun q => decide (0 ≤ q)) (colOf t.rows jp) with
  | error e => rw [h1] at h; simp [Except.bind, bind] at h
  | ok m1 =>
    rw [h1] at h
    simp only [Except.bind, bind] at h
    cases h2 : seriesCmp (fun q => decide (0 < q)) (colOf t.rows jq) with
    | error e => rw [h2] at h; simp [Except.bind, bind] at h
    | ok m2 =>
      rw [h2] at h
      simp only [Except.bind, bind] at h
      cases h
      rw [seriesCmp_ok_map _ h1, seriesCmp_ok_map _ h2]
      unfold colOf
      rw [List.map_map, List.map_map, List.zipWith_map, List.zipWith_same]
      rfl

theorem invalidBadMask_ok_eq (t : Table) (jp jq : Nat) (bad : List Bool)
    (h : invalidBadMask t jp jq = .ok bad) :
    bad = t.rows.map (fun r =>
      cmpCell (fun q => decide (q < 0)) (r.getD jp Val.missing) ||
      cmpCell (fun q => decide (q ≤ 0)) (r.getD jq Val.missing)) := by
  unfold invalidBadMask at h
  cases h1 : seriesCmp (fun q => decide (q < 0)) (colOf t.rows jp) with
  | error e => rw [h1] at h; simp [Except.bind, bind] at h
  | ok m1 =>
    rw [h1] at h
    simp only [Except.bind, bind] at h
    cases h2 : seriesCmp (fun q => decide (q ≤ 0)) (colOf t.rows jq) with
    | error e => rw [h2] at h; simp [Except.bind, bind] at h
    | ok m2 =>
      rw [h2] at h
      simp only [Except.bind, bind] at h
      cases h
      rw [seriesCmp_ok_map _ h1, seriesCmp_ok_map _ h2]
      unfold colOf
      rw [List.map_map, List.map_map, List.zipWith_map, List.zipWith_same]
      rfl

theorem cleanPipeline_ok_decomp (strat : Strategy) (t t' : Table) (d i : Nat)
    (h : cleanPipeline strat t = .ok (t', d, i)) :
    ∃ t1 t3, toDatetimeCol t = .ok t1 ∧
      handleMissing strat (dropDups t1) = .ok t3 ∧
      invalidFilter t3 = .ok (t', i) ∧
      d = t1.rows.length - (dropDups t1).rows.length := by
  unfold cleanPipeline at h
  cases h1 : toDatetimeCol t with
  | error e => rw [h1] at h; simp [Except.bind, bind] at h
  | ok t1 =>
    rw [h1] at h
    simp only [Except.bind, bind] at h
    cases h3 : handleMissing strat (dropDups t1) with
    | error e => rw [h3] at h; simp [Except.bind, bind] at h
    | ok t3 =>
      rw [h3] at h
      simp only [Except.bind, bind] at h
      cases h4 : invalidFilter t3 with
      | error e => rw [h4] at h; simp [Except.bind, bind] at h
      | ok pr =>
        rw [h4] at h
        obtain ⟨t4, inv⟩ := pr
        simp only [pure, Except.pure] at h
        cases h
        exact ⟨t1, t3, rfl, h3, h4, rfl⟩

theorem cmpCell_ge0_true {v : Val}
    (h : cmpCell (fun q => decide (0 ≤ q)) v = true) :
    ∃ p : ℚ, v = Val.num p ∧ 0 ≤ p := by
  cases v with
  | num p => exact ⟨p, rfl, by simpa [cmpCell] using h⟩
  | str s => simp [cmpCell] at h
  | missing => simp [cmpCell] at h

theorem cmpCell_gt0_true {v : Val}
    (h : cmpCell (fun q => decide (0 < q)) v = true) :
    ∃ p : ℚ, v = Val.num p ∧ 0 < p := by
  cases v with
  | num p => exact ⟨p, rfl, by simpa [cmpCell] using h⟩
  | str s => simp [cmpCell] at h
  | missing => simp [cmpCell] at h

/-- C1: after the cleaning pipeline completes (date parsing, deduplication,
missing-value handling by any of the three strategies, invalid-row
filtering), every row of the cleaned table has a numeric price that is
`>= 0` and a numeric quantity that is `> 0`. -/
theorem c1_cleaned_rows_valid (strat : Strategy) (t t' : Table) (d i : Nat)
    (h : cleanPipeline strat t = .ok (t', d, i)) :
    ∃ jp jq, t'.colIdx "price" = some jp ∧ t'.colIdx "quantity" = some jq ∧
      ∀ r ∈ t'.rows,
        (∃ p : ℚ, r.getD jp Val.missing = Val.num p ∧ 0 ≤ p) ∧
        (∃ q : ℚ, r.getD jq Val.missing = Val.num q ∧ 0 < q) := by
  rcases cleanPipeline_ok_decomp strat t t' d i h with ⟨t1, t3, _, _, h4, _⟩
  rcases invalidFilter_ok_decomp t3 t' i h4 with
    ⟨jp, jq, keep, bad, hjp, hjq, _, hk, hhead, hrows, _⟩
  have hidx : t'.colIdx "price" = some jp ∧ t'.colIdx "quantity" = some jq := by
    unfold Table.colIdx
    rw [hhead]
    exact ⟨hjp, hjq⟩
  refine ⟨jp, jq, hidx.1, hidx.2, ?_⟩
  intro r hr
  rw [hrows, invalidKeepMask_ok_eq t3 jp jq keep hk] at hr
  rcases mem_maskFilter_map _ t3.rows r hr with ⟨hf, _⟩
  have hand : cmpCell (fun q => decide (0 ≤ q)) (r.getD jp Val.missing) = true ∧
      cmpCell (fun q => decide (0 < q)) (r.getD jq Val.missing) = true := by
    simpa using hf
  rcases hand with ⟨h1, h2⟩
  exact ⟨cmpCell_ge0_true h1, cmpCell_gt0_true h2⟩

theorem c1_cleaned_rows_valid_witness :
    cleanPipeline Strategy.drop tFull = .ok (tFullDropRes, 1, 0) ∧
    (∃ jp jq, tFullDropRes.colIdx "price" = some jp ∧
      tFullDropRes.colIdx "quantity" = some jq ∧
      ∀ r ∈ tFullDropRes.rows,
        (∃ p : ℚ, r.getD jp Val.missing = Val.num p ∧ 0 ≤ p) ∧
        (∃ q : ℚ, r.getD jq Val.missing = Val.num q ∧ 0 < q)) := by
  have h : cleanPipeline Strategy.drop tFull = .ok (tFullDropRes, 1, 0) := by decide
  exact ⟨h, c1_cleaned_rows_valid Strategy.drop tFull tFullDropRes 1 0 h⟩

theorem handleMissing_drop_rows (t td : Table)
    (h : handleMissing Strategy.drop t = .ok td) :
    td.rows = t.rows.filter (fun r => !(r.contains Val.missing)) := by
  simp only [handleMissing] at h
  cases h
  rfl

theorem handleMissing_fillCentral_rows (t tc : Table)
    (h : handleMissing Strategy.fillCentral t = .ok tc) :
    ∃ plan, (List.range t.headers.length).mapM (fillValueFor t) = .ok plan ∧
      tc.rows = applyFills plan t.rows := by
  simp only [handleMissing] at h
  cases hp : (List.range t.headers.length).mapM (fillValueFor t) with
  | error e => rw [hp] at h; simp [Except.bind, bind] at h
  | ok plan =>
    rw [hp] at h
    simp only [Except.bind, bind] at h
    cases h
    exact ⟨plan, rfl, rfl⟩

theorem handleMissing_fillConstant_rows' (t tf : Table)
    (h : handleMissing Strategy.fillConstant t = .ok tf) :
    tf.rows = applyFills
      (t.headers.map (fun p =>
        some (if p.2.isNumeric then Val.num 0 else Val.str "Unknown"))) t.rows := by
  simp only [handleMissing] at h
  cases h
  rfl

/-- C10: every cleaning step keeps surviving rows in their original
relative order.  Deduplication, row dropping, and invalid-row filtering
produce sublists of the incoming row sequence (no reordering), while the
two fill strategies rewrite rows in place: same row count, same positions,
every non-missing cell untouched.  The daily OHLC aggregation's
first/last prices therefore refer to upload order. -/
theorem c10_cleaning_preserves_order (t td tc tf ti : Table) (n : Nat)
    (h1 : handleMissing Strategy.drop t = .ok td)
    (h2 : handleMissing Strategy.fillCentral t = .ok tc)
    (h3 : handleMissing Strategy.fillConstant t = .ok tf)
    (h4 : invalidFilter t = .ok (ti, n)) :
    (dropDups t).rows.Sublist t.rows ∧
    (∀ r ∈ t.rows, r ∈ (dropDups t).rows) ∧
    td.rows.Sublist t.rows ∧
    List.Forall₂ rowFillDerived t.rows tc.rows ∧
    List.Forall₂ rowFillDerived t.rows tf.rows ∧
    ti.rows.Sublist t.rows := by
  refine ⟨dedupFirst_sublist [] t.rows, ?_, ?_, ?_, ?_, ?_⟩
  · intro r hr
    show r ∈ dedupFirst [] t.rows
    exact (mem_dedupFirst [] t.rows r).mpr ⟨hr, by simp⟩
  · rw [handleMissing_drop_rows t td h1]
    exact List.filter_sublist t.rows
  · rcases handleMissing_fillCentral_rows t tc h2 with ⟨plan, _, hrows⟩
    rw [hrows]
    exact applyFills_rowFillDerived plan t.rows
  · rw [handleMissing_fillConstant_rows' t tf h3]
    exact applyFills_rowFillDerived _ t.rows
  · rcases invalidFilter_ok_decomp t ti n h4 with
      ⟨jp, jq, keep, bad, _, _, _, _, _, hrows, _⟩
    rw [hrows]
    exact maskFilter_sublist keep t.rows

theorem c10_cleaning_preserves_order_witness :
    (dropDups tOrd).rows.Sublist tOrd.rows ∧
    (∀ r ∈ tOrd.rows, r ∈ (dropDups tOrd).rows) ∧
    tOrdDrop.rows.Sublist tOrd.rows ∧
    List.Forall₂ rowFillDerived tOrd.rows tOrdCentral.rows ∧
    List.Forall₂ rowFillDerived tOrd.rows tOrdConst.rows ∧
    tOrdInv.rows.Sublist tOrd.rows :=
  c10_cleaning_preserves_order tOrd tOrdDrop tOrdCentral tOrdConst tOrdInv 0
    (by decide) (by decide) (by decide) (by decide)

theorem colIdx_eq_none_of_notmem (t : Table) (n : String) (h : n ∉ t.names) :
    t.colIdx n = none := by
  rw [colIdx_names, List.findIdx?_eq_none_iff]
  intro x hx
  rw [beq_eq_false_iff_ne]
  intro he
  exact h (he ▸ hx)

theorem cleanPipeline_err_parse (strat : Strategy) (t : Table) (e : String)
    (h : toDatetimeCol t = .error e) : cleanPipeline strat t = .error e := by
  unfold cleanPipeline
  rw [h]
  rfl

theorem cleanPipeline_err_handle (strat : Strategy) (t t1 : Table) (e : String)
    (h1 : toDatetimeCol t = .ok t1)
    (h3 : handleMissing strat (dropDups t1) = .error e) :
    cleanPipeline strat t = .error e := by
  unfold cleanPipeline
  rw [h1]
  simp only [Except.bind, bind]
  rw [h3]

theorem cleanPipeline_err_filter (strat : Strategy) (t t1 t3 : Table) (e : String)
    (h1 : toDatetimeCol t = .ok t1)
    (h3 : handleMissing strat (dropDups t1) = .ok t3)
    (h4 : invalidFilter t3 = .error e) :
    cleanPipeline strat t = .error e := by
  unfold cleanPipeline
  rw [h1]
  simp only [Except.bind, bind]
  rw [h3]
  simp only [Except.bind, bind]
  rw [h4]

/-- C4 counterexample: with `order_date` absent the very first cleaning
line raises `KeyError` instead of skipping date parsing, and with `price`
absent the invalid-row filter raises `KeyError` instead of skipping its
predicate — the pipeline aborts rather than degrading gracefully. -/
theorem c4_counterexample :
    cleanPipeline Strategy.drop tNoOrderDate = .error "KeyError: order_date" ∧
    cleanPipeline Strategy.drop tNoPrice = .error "KeyError: price" :=
  ⟨by decide, by decide⟩

/-- C4 amended: if any of the `order_date`, `price`, or `quantity` columns
is absent, the cleaning pipeline raises a KeyError and aborts — neither
date parsing nor invalid-row filtering is skipped for a missing column. -/
theorem c4_missing_column_aborts (strat : Strategy) (t : Table)
    (h : "order_date" ∉ t.names ∨ "price" ∉ t.names ∨ "quantity" ∉ t.names) :
    ∃ e, cleanPipeline strat t = .error e := by
  rcases h with hod | hp
  · refine ⟨"KeyError: order_date", ?_⟩
    apply cleanPipeline_err_parse
    unfold toDatetimeCol
    rw [colIdx_eq_none_of_notmem t _ hod]
  · cases h1 : toDatetimeCol t with
    | error e => exact ⟨e, cleanPipeline_err_parse strat t e h1⟩
    | ok t1 =>
      have hnames : t1.names = t.names := (toDatetimeCol_ok_names t t1 h1).1
      cases h3 : handleMissing strat (dropDups t1) with
      | error e => exact ⟨e, cleanPipeline_err_handle strat t t1 e h1 h3⟩
      | ok t3 =>
        have hh : t3.headers = t1.headers := handleMissing_headers _ (dropDups t1) _ h3
        have hn3 : t3.names = t.names := by
          unfold Table.names at hnames ⊢
          rw [hh]
          exact hnames
        have herr : ∃ e, invalidFilter t3 = .error e := by
          rcases hp with hp | hq
          · refine ⟨"KeyError: price", ?_⟩
            unfold invalidFilter
            rw [colIdx_eq_none_of_notmem t3 _ (hn3 ▸ hp)]
            cases t3.colIdx "quantity" <;> rfl
          · cases hcp : t3.colIdx "price" with
            | none =>
              refine ⟨"KeyError: price", ?_⟩
              unfold invalidFilter
              rw [hcp]
              cases t3.colIdx "quantity" <;> rfl
            | some jp =>
              refine ⟨"KeyError: quantity", ?_⟩
              unfold invalidFilter
              rw [hcp, colIdx_eq_none_of_notmem t3 _ (hn3 ▸ hq)]
        rcases herr with ⟨e, he⟩
        exact ⟨e, cleanPipeline_err_filter strat t t1 t3 e h1 h3 he⟩

theorem c4_missing_column_aborts_witness :
    ∃ e, cleanPipeline Strategy.drop tNoPrice = .error e :=
  c4_missing_column_aborts Strategy.drop tNoPrice (Or.inr (Or.inl (by decide)))

/-- C5 counterexample: in a cleaned table with a text-typed `customer_id`
column and a datetime `order_date` column, `customer_id` lands in both the
identifier list and the categorical set (line 86 has no `id_cols`
exclusion), and `order_date` is a present column belonging to none of the
three sets — the three sets are neither pairwise disjoint nor a partition
of the columns. -/
theorem c5_counterexample :
    "customer_id" ∈ id_cols ∧ "customer_id" ∈ categorical_cols tClassify ∧
    "order_date" ∈ tClassify.names ∧ "order_date" ∉ id_cols ∧
    "order_date" ∉ numeric_cols tClassify ∧
    "order_date" ∉ categorical_cols tClassify := by
  decide

/-- C5 amended: `numeric` is the int64/float64 columns minus the fixed
identifier list and is disjoint (under distinct column names) from
`categorical`; but `categorical` is every object-dtype column — including
ones named in the identifier list — and a datetime column belongs to no
set, so the three sets need not partition the columns. -/
theorem c5_classification_amended (t : Table) (hnd : t.names.Nodup) :
    (∀ n ∈ numeric_cols t, n ∉ id_cols) ∧
    (∀ n ∈ numeric_cols t, n ∉ categorical_cols t) ∧
    (∀ n ∈ numeric_cols t, ∃ d, (n, d) ∈ t.headers ∧ d.isNumeric = true) ∧
    (∀ n ∈ categorical_cols t, ∃ d, (n, d) ∈ t.headers ∧ d = Dtype.object) := by
  have hnum : ∀ n ∈ numeric_cols t, ∃ d, (n, d) ∈ t.headers ∧ d.isNumeric = true := by
    intro n hn
    unfold numeric_cols at hn
    rcases List.mem_filter.mp hn with ⟨hmap, _⟩
    rcases List.mem_map.mp hmap with ⟨p, hp, he⟩
    rcases List.mem_filter.mp hp with ⟨hmem, hdt⟩
    subst he
    exact ⟨p.2, by simpa using hmem, hdt⟩
  have hcat : ∀ n ∈ categorical_cols t, ∃ d, (n, d) ∈ t.headers ∧ d = Dtype.object := by
    intro n hn
    unfold categorical_cols at hn
    rcases List.mem_map.mp hn with ⟨p, hp, he⟩
    rcases List.mem_filter.mp hp with ⟨hmem, hdt⟩
    subst he
    exact ⟨p.2, by simpa using hmem, by simpa using hdt⟩
  refine ⟨?_, ?_, hnum, hcat⟩
  · intro n hn
    unfold numeric_cols at hn
    rcases List.mem_filter.mp hn with ⟨_, hid⟩
    intro hmem
    rw [Bool.not_eq_eq_eq_not] at hid
    exact absurd ((contains_eq_true_iff id_cols n).mpr hmem) (by simpa using hid)
  · intro n hn hcn
    rcases hnum n hn with ⟨d1, hm1, hd1⟩
    rcases hcat n hcn with ⟨d2, hm2, hd2⟩
    have hne : (n, d1) ≠ (n, d2) := by
      intro he
      rw [hd2, Prod.mk.injEq] at he
      rw [he.2] at hd1
      simp [Dtype.isNumeric] at hd1
    exact hne (List.inj_on_of_nodup_map hnd hm1 hm2 rfl)

theorem c5_classification_amended_witness :
    (∀ n ∈ numeric_cols tClassify, n ∉ id_cols) ∧
    (∀ n ∈ numeric_cols tClassify, n ∉ categorical_cols tClassify) ∧
    (∀ n ∈ numeric_cols tClassify, ∃ d, (n, d) ∈ tClassify.headers ∧ d.isNumeric = true) ∧
    (∀ n ∈ categorical_cols tClassify, ∃ d, (n, d) ∈ tClassify.headers ∧ d = Dtype.object) :=
  c5_classification_amended tClassify (by decide)

/-- C7 counterexample: a float64 `price` column whose values are all
missing: its median is NaN, `fillna(NaN)` is a no-op, and the
central-tendency fill step completes while the missing value is still
there. -/
theorem c7_counterexample :
    handleMissing Strategy.fillCentral tAllMissingPrice = .ok tAllMissingPrice ∧
    Val.missing ∈ tAllMissingPrice.rows.getD 0 [] :=
  ⟨by decide, by decide⟩

/-- C8 counterexample: an object-dtype column that is entirely missing
makes `df[col].mode()[0]` raise `KeyError: 0` under the central-tendency
strategy, so the cleaning pipeline does raise for this input. -/
theorem c8_counterexample :
    cleanPipeline Strategy.fillCentral tAllMissingCat = .error "KeyError: 0" := by
  decide

theorem filter_id_map_length {α : Type} (f : α → Bool) :
    ∀ (l : List α), ((l.map f).filter id).length = (l.filter f).length := by
  intro l
  induction l with
  | nil => rfl
  | cons a l ih =>
    cases hfa : f a with
    | true => simp [List.filter_cons, hfa, ih]
    | false => simp [List.filter_cons, hfa, ih]

theorem length_filter_add_length_filter_not {α : Type} (p : α → Bool) (l : List α) :
    (l.filter p).length + (l.filter (fun a => !p a)).length = l.length := by
  induction l with
  | nil => rfl
  | cons a l ih =>
    cases hfa : p a with
    | true => simp [List.filter_cons, hfa, ← ih]; omega
    | false => simp [List.filter_cons, hfa, ← ih]; omega

/-- C9 counterexample: a lone row whose price is still missing when the
filter runs (all-missing price column under central fill) and whose
quantity is 1.  The row is removed — `NaN >= 0` is false — yet
`invalid_rows` counted 0 rows, since `NaN < 0` is also false; so a removed
row satisfies neither `price < 0` nor `quantity <= 0` and goes uncounted. -/
theorem c9_counterexample :
    invalidFilter tMissingPrice =
      .ok ({ headers := tMissingPrice.headers, rows := [] }, 0) ∧
    tMissingPrice.rows.length = 1 :=
  ⟨by decide, by decide⟩

/-- C9 amended: the filter keeps exactly the rows satisfying
`price >= 0 ∧ quantity > 0` (NaN comparisons are false, so a row with a
missing price or quantity is removed without being counted), while
`removed_invalid_count` counts the rows satisfying
`price < 0 ∨ quantity <= 0`; when every price and quantity cell is an
actual number the two notions coincide: exactly the counted rows are
removed. -/
theorem c9_filter_exact_when_numeric (t t' : Table) (c jp jq : Nat)
    (hjp : t.colIdx "price" = some jp) (hjq : t.colIdx "quantity" = some jq)
    (h : invalidFilter t = .ok (t', c))
    (hall : ∀ r ∈ t.rows, (∃ p : ℚ, r.getD jp Val.missing = Val.num p) ∧
                          (∃ q : ℚ, r.getD jq Val.missing = Val.num q)) :
    t'.rows = t.rows.filter (fun r =>
      !(cmpCell (fun q => decide (q < 0)) (r.getD jp Val.missing) ||
        cmpCell (fun q => decide (q ≤ 0)) (r.getD jq Val.missing))) ∧
    c = (t.rows.filter (fun r =>
      cmpCell (fun q => decide (q < 0)) (r.getD jp Val.missing) ||
      cmpCell (fun q => decide (q ≤ 0)) (r.getD jq Val.missing))).length ∧
    c = t.rows.length - t'.rows.length := by
  rcases invalidFilter_ok_decomp t t' c h with
    ⟨jp', jq', keep, bad, hjp', hjq', hb, hk, _, hrows, hc⟩
  have hjpe : jp = jp' := by rw [hjp] at hjp'; exact Option.some.inj hjp'
  have hjqe : jq = jq' := by rw [hjq] at hjq'; exact Option.some.inj hjq'
  subst hjpe
  subst hjqe
  have hpoint : ∀ r ∈ t.rows,
      (cmpCell (fun q => decide (0 ≤ q)) (r.getD jp Val.missing) &&
       cmpCell (fun q => decide (0 < q)) (r.getD jq Val.missing)) =
      !(cmpCell (fun q => decide (q < 0)) (r.getD jp Val.missing) ||
        cmpCell (fun q => decide (q ≤ 0)) (r.getD jq Val.missing)) := by
    intro r hr
    rcases hall r hr with ⟨⟨p, hp⟩, ⟨q, hq⟩⟩
    rw [hp, hq]
    show (decide (0 ≤ p) && decide (0 < q)) = !(decide (p < 0) || decide (q ≤ 0))
    rw [Bool.not_or, ← decide_not, ← decide_not]
    congr 1
    · exact decide_eq_decide.mpr not_lt.symm
    · exact decide_eq_decide.mpr not_le.symm
  have hkeepfilter : t'.rows = t.rows.filter (fun r =>
      !(cmpCell (fun q => decide (q < 0)) (r.getD jp Val.missing) ||
        cmpCell (fun q => decide (q ≤ 0)) (r.getD jq Val.missing))) := by
    rw [hrows, invalidKeepMask_ok_eq t jp jq keep hk, maskFilter_map_eq_filter]
    exact List.filter_congr hpoint
  refine ⟨hkeepfilter, ?_, ?_⟩
  · rw [hc, invalidBadMask_ok_eq t jp jq bad hb, filter_id_map_length]
  · rw [hc, invalidBadMask_ok_eq t jp jq bad hb, filter_id_map_length, hkeepfilter]
    have := length_filter_add_length_filter_not (fun r =>
      !(cmpCell (fun q => decide (q < 0)) (r.getD jp Val.missing) ||
        cmpCell (fun q => decide (q ≤ 0)) (r.getD jq Val.missing))) t.rows
    have heq : t.rows.filter (fun r =>
        !(!(cmpCell (fun q => decide (q < 0)) (r.getD jp Val.missing) ||
            cmpCell (fun q => decide (q ≤ 0)) (r.getD jq Val.missing)))) =
        t.rows.filter (fun r =>
          cmpCell (fun q => decide (q < 0)) (r.getD jp Val.missing) ||
          cmpCell (fun q => decide (q ≤ 0)) (r.getD jq Val.missing)) := by
      apply List.filter_congr
      intro r _
      exact Bool.not_not _
    rw [heq] at this
    omega

theorem c9_filter_exact_when_numeric_witness :
    tC9res.rows = tC9.rows.filter (fun r =>
      !(cmpCell (fun q => decide (q < 0)) (r.getD 0 Val.missing) ||
        cmpCell (fun q => decide (q ≤ 0)) (r.getD 1 Val.missing))) ∧
    2 = (tC9.rows.filter (fun r =>
      cmpCell (fun q => decide (q < 0)) (r.getD 0 Val.missing) ||
      cmpCell (fun q => decide (q ≤ 0)) (r.getD 1 Val.missing))).length ∧
    2 = tC9.rows.length - tC9res.rows.length :=
  c9_filter_exact_when_numeric tC9 tC9res 2 0 1 (by decide) (by decide)
    (by decide)
    (by
      intro r hr
      have hc : r = [Val.num (-1), Val.num 2] ∨ r = [Val.num 1, Val.num 2] ∨
          r = [Val.num 1, Val.num 0] := by simpa [tC9] using hr
      rcases hc with h | h | h <;> subst h <;> exact ⟨⟨_, rfl⟩, ⟨_, rfl⟩⟩)

theorem mem_colOf {rows : List (List Val)} {j : Nat} {v : Val}
    (h : v ∈ colOf rows j) : ∃ r ∈ rows, v = r.getD j Val.missing := by
  rcases List.mem_map.mp h with ⟨r, hr, he⟩
  exact ⟨r, hr, he.symm⟩

theorem fillCell_numOrMissing {c : Val} {q : ℚ}
    (hc : numOrMissing c = true) : ∃ p : ℚ, fillCell c (Val.num q) = Val.num p ∨
      (fillCell c (Val.num q) = c ∧ c ≠ Val.missing) := by
  cases c with
  | num p => exact ⟨p, Or.inr ⟨rfl, by simp⟩⟩
  | str s => simp [numOrMissing] at hc
  | missing => exact ⟨q, Or.inl rfl⟩

/-- C2: invalid-row filtering runs strictly after missing-value handling.
Under the constant-fill strategy a row whose missing price was imputed to
0 passes the line-75 mask (`0 >= 0` holds, and its quantity is positive),
while a row whose missing quantity was imputed to 0 fails `quantity > 0`
and is removed even though its price is valid. -/
theorem c2_constant_fill_asymmetry (t tf : Table) (jp jq i1 i2 : Nat)
    (hjp : t.colIdx "price" = some jp) (hjq : t.colIdx "quantity" = some jq)
    (hdp : (t.headers.getD jp ("", Dtype.object)).2.isNumeric = true)
    (hdq : (t.headers.getD jq ("", Dtype.object)).2.isNumeric = true)
    (hwf : t.wf)
    (hf : handleMissing Strategy.fillConstant t = .ok tf)
    (hnum : ∀ r ∈ t.rows, numOrMissing (r.getD jp Val.missing) = true ∧
                          numOrMissing (r.getD jq Val.missing) = true)
    (hi1 : i1 < t.rows.length)
    (hp1 : (t.rows.getD i1 []).getD jp Val.missing = Val.missing)
    (hq1 : ∃ q : ℚ, (t.rows.getD i1 []).getD jq Val.missing = Val.num q ∧ 0 < q)
    (hi2 : i2 < t.rows.length)
    (hp2 : ∃ p : ℚ, (t.rows.getD i2 []).getD jp Val.missing = Val.num p ∧ 0 ≤ p)
    (hq2 : (t.rows.getD i2 []).getD jq Val.missing = Val.missing) :
    tf.colIdx "price" = some jp ∧ tf.colIdx "quantity" = some jq ∧
    (colOf tf.rows jp).getD i1 Val.missing = Val.num 0 ∧
    (colOf tf.rows jq).getD i2 Val.missing = Val.num 0 ∧
    ∃ keep, invalidKeepMask tf jp jq = .ok keep ∧
      keep.getD i1 false = true ∧ keep.getD i2 false = false := by
  have hhead : tf.headers = t.headers := handleMissing_headers _ t _ hf
  have hrows := handleMissing_fillConstant_rows' t tf hf
  have hjplt : jp < t.headers.length := (colIdx_some_name t _ jp hjp).1
  have hjqlt : jq < t.headers.length := (colIdx_some_name t _ jq hjq).1
  set plan := t.headers.map (fun p =>
    some (if p.2.isNumeric then Val.num 0 else Val.str "Unknown")) with hplan
  have hplen : plan.length = t.headers.length := by simp [hplan]
  have hwfp : ∀ r ∈ t.rows, jp < r.length := fun r hr => (hwf r hr) ▸ hjplt
  have hwfq : ∀ r ∈ t.rows, jq < r.length := fun r hr => (hwf r hr) ▸ hjqlt
  have hplanp : plan.getD jp none = some (Val.num 0) := by
    rw [hplan, getD_map_lt _ _ jp none ("", Dtype.object) hjplt, hdp]
    rfl
  have hplanq : plan.getD jq none = some (Val.num 0) := by
    rw [hplan, getD_map_lt _ _ jq none ("", Dtype.object) hjqlt, hdq]
    rfl
  have hcolp : colOf tf.rows jp = (colOf t.rows jp).map (fun c => fillCell c (Val.num 0)) := by
    rw [hrows]
    have := applyFills_colOf plan t.rows jp (hplen ▸ hjplt) hwfp
    rw [hplanp] at this
    exact this
  have hcolq : colOf tf.rows jq = (colOf t.rows jq).map (fun c => fillCell c (Val.num 0)) := by
    rw [hrows]
    have := applyFills_colOf plan t.rows jq (hplen ▸ hjqlt) hwfq
    rw [hplanq] at this
    exact this
  have hlenp : (colOf t.rows jp).length = t.rows.length := colOf_length t.rows jp
  have hlenq : (colOf t.rows jq).length = t.rows.length := colOf_length t.rows jq
  have hcellp1 : (colOf tf.rows jp).getD i1 Val.missing = Val.num 0 := by
    rw [hcolp, getD_map_lt _ _ i1 Val.missing Val.missing (hlenp ▸ hi1)]
    rw [colOf, getD_map_lt _ _ i1 Val.missing [] hi1, hp1]
    rfl
  have hcellq2 : (colOf tf.rows jq).getD i2 Val.missing = Val.num 0 := by
    rw [hcolq, getD_map_lt _ _ i2 Val.missing Val.missing (hlenq ▸ hi2)]
    rw [colOf, getD_map_lt _ _ i2 Val.missing [] hi2, hq2]
    rfl
  rcases hq1 with ⟨q1, hq1e, hq1pos⟩
  rcases hp2 with ⟨p2, hp2e, hp2nonneg⟩
  have hcellq1 : (colOf tf.rows jq).getD i1 Val.missing = Val.num q1 := by
    rw [hcolq, getD_map_lt _ _ i1 Val.missing Val.missing (hlenq ▸ hi1)]
    rw [colOf, getD_map_lt _ _ i1 Val.missing [] hi1, hq1e]
    rfl
  have hcellp2 : (colOf tf.rows jp).getD i2 Val.missing = Val.num p2 := by
    rw [hcolp, getD_map_lt _ _ i2 Val.missing Val.missing (hlenp ▸ hi2)]
    rw [colOf, getD_map_lt _ _ i2 Val.missing [] hi2, hp2e]
    rfl
  have hnostr_p : ∀ v ∈ colOf tf.rows jp, numOrMissing v = true := by
    intro v hv
    rw [hcolp] at hv
    rcases List.mem_map.mp hv with ⟨c, hc, he⟩
    rcases mem_colOf hc with ⟨r, hr, hce⟩
    have := (hnum r hr).1
    rw [← hce] at this
    cases c with
    | num p => rw [← he]; rfl
    | str s => simp [numOrMissing] at this
    | missing => rw [← he]; rfl
  have hnostr_q : ∀ v ∈ colOf tf.rows jq, numOrMissing v = true := by
    intro v hv
    rw [hcolq] at hv
    rcases List.mem_map.mp hv with ⟨c, hc, he⟩
    rcases mem_colOf hc with ⟨r, hr, hce⟩
    have := (hnum r hr).2
    rw [← hce] at this
    cases c with
    | num p => rw [← he]; rfl
    | str s => simp [numOrMissing] at this
    | missing => rw [← he]; rfl
  have hm1 := seriesCmp_ok_of_noStr (fun q => decide (0 ≤ q)) hnostr_p
  have hm2 := seriesCmp_ok_of_noStr (fun q => decide (0 < q)) hnostr_q
  have hkeep : invalidKeepMask tf jp jq =
      .ok (List.zipWith and ((colOf tf.rows jp).map (cmpCell (fun q => decide (0 ≤ q))))
        ((colOf tf.rows jq).map (cmpCell (fun q => decide (0 < q))))) := by
    unfold invalidKeepMask
    rw [hm1]
    simp only [Except.bind, bind]
    rw [hm2]
  have hlenfp : (colOf tf.rows jp).length = t.rows.length := by
    rw [hcolp]; simp [hlenp]
  have hlenfq : (colOf tf.rows jq).length = t.rows.length := by
    rw [hcolq]; simp [hlenq]
  refine ⟨by unfold Table.colIdx; rw [hhead]; exact hjp,
          by unfold Table.colIdx; rw [hhead]; exact hjq,
          hcellp1, hcellq2, _, hkeep, ?_, ?_⟩
  · rw [getD_zipWith_and _ _ i1 (by simpa [hlenfp] using hi1) (by simp [hlenfp, hlenfq])]
    rw [getD_map_lt _ _ i1 false Val.missing (hlenfp ▸ hi1), hcellp1]
    rw [getD_map_lt _ _ i1 false Val.missing (hlenfq ▸ hi1), hcellq1]
    show (decide ((0 : ℚ) ≤ 0) && decide ((0 : ℚ) < q1)) = true
    simp [hq1pos]
  · rw [getD_zipWith_and _ _ i2 (by simpa [hlenfp] using hi2) (by simp [hlenfp, hlenfq])]
    rw [getD_map_lt _ _ i2 false Val.missing (hlenfp ▸ hi2), hcellp2]
    rw [getD_map_lt _ _ i2 false Val.missing (hlenfq ▸ hi2), hcellq2]
    show (decide ((0 : ℚ) ≤ p2) && decide ((0 : ℚ) < 0)) = false
    simp

theorem c2_constant_fill_asymmetry_witness :
    tC2f.colIdx "price" = some 0 ∧ tC2f.colIdx "quantity" = some 1 ∧
    (colOf tC2f.rows 0).getD 0 Val.missing = Val.num 0 ∧
    (colOf tC2f.rows 1).getD 1 Val.missing = Val.num 0 ∧
    ∃ keep, invalidKeepMask tC2f 0 1 = .ok keep ∧
      keep.getD 0 false = true ∧ keep.getD 1 false = false :=
  c2_constant_fill_asymmetry tC2 tC2f 0 1 0 1 (by decide) (by decide)
    (by decide) (by decide)
    (by
      intro r hr
      have hc : r = [Val.missing, Val.num 1] ∨ r = [Val.num 5, Val.missing] := by
        simpa [tC2] using hr
      rcases hc with h | h <;> subst h <;> rfl)
    (by decide)
    (by
      intro r hr
      have hc : r = [Val.missing, Val.num 1] ∨ r = [Val.num 5, Val.missing] := by
        simpa [tC2] using hr
      rcases hc with h | h <;> subst h <;> exact ⟨rfl, rfl⟩)
    (by decide) (by decide) ⟨1, by decide, by decide⟩ (by decide)
    ⟨5, by decide, by decide⟩ (by decide)

theorem colOf_getD (rows : List (List Val)) (j i : Nat) (hi : i < rows.length) :
    (colOf rows j).getD i Val.missing = (rows.getD i []).getD j Val.missing := by
  unfold colOf
  exact getD_map_lt _ _ i Val.missing [] hi

theorem fillCentral_plan_at (t : Table) (plan : List (Option Val)) (j : Nat)
    (hp : (List.range t.headers.length).mapM (fillValueFor t) = .ok plan)
    (hj : j < t.headers.length) :
    plan.length = t.headers.length ∧ fillValueFor t j = .ok (plan.getD j none) := by
  have hf := mapM_ok_forall₂ (fillValueFor t) hp
  have hlen : plan.length = t.headers.length := by
    have := hf.length_eq
    simpa using this.symm
  refine ⟨hlen, ?_⟩
  have := forall₂_getD hf j 0 none (by simpa using hj)
  have hg : (List.range t.headers.length).getD j 0 = j := by
    rw [List.getD_eq_getElem?_getD,
      List.getElem?_eq_getElem (by simpa using hj)]
    simp
  rwa [hg] at this

/-- C3: under central-tendency fill, every missing cell of an
int64/float64 column is replaced by that column's median over its
non-missing values (when the median exists), every missing cell of a
non-numeric column is replaced by `mode()[0]` — the first, i.e. smallest,
of the most frequent values — and every non-missing cell is unchanged. -/
theorem c3_central_fill_cells (t t' : Table) (j i : Nat)
    (hwf : t.wf)
    (h : handleMissing Strategy.fillCentral t = .ok t')
    (hj : j < t.headers.length) (hi : i < t.rows.length) :
    ((t.rows.getD i []).getD j Val.missing ≠ Val.missing →
      (t'.rows.getD i []).getD j Val.missing = (t.rows.getD i []).getD j Val.missing) ∧
    ((t.headers.getD j ("", Dtype.object)).2.isNumeric = true →
      (t.rows.getD i []).getD j Val.missing = Val.missing →
      ∀ m : ℚ, median (numsOf (colOf t.rows j)) = some m →
        (t'.rows.getD i []).getD j Val.missing = Val.num m) ∧
    ((t.headers.getD j ("", Dtype.object)).2.isNumeric = false →
      (t.rows.getD i []).getD j Val.missing = Val.missing →
      ∀ mo : Val, modeFirst (colOf t.rows j) = some mo →
        (t'.rows.getD i []).getD j Val.missing = mo) := by
  rcases handleMissing_fillCentral_rows t t' h with ⟨plan, hp, hrows⟩
  rcases fillCentral_plan_at t plan j hp hj with ⟨hplen, hfv⟩
  have hwfj : ∀ r ∈ t.rows, j < r.length := fun r hr => (hwf r hr) ▸ hj
  have hcol := applyFills_colOf plan t.rows j (hplen ▸ hj) hwfj
  have hlen' : t'.rows.length = t.rows.length := by
    rw [hrows]; exact applyFills_length plan t.rows
  have hacc : ∀ v : Val, plan.getD j none = some v →
      (t'.rows.getD i []).getD j Val.missing =
        fillCell ((t.rows.getD i []).getD j Val.missing) v := by
    intro v hv
    rw [← colOf_getD t'.rows j i (hlen' ▸ hi), hrows]
    rw [hv] at hcol
    rw [hcol, getD_map_lt _ _ i Val.missing Val.missing
      ((colOf_length t.rows j) ▸ hi), colOf_getD t.rows j i hi]
  have hnone : plan.getD j none = none →
      (t'.rows.getD i []).getD j Val.missing =
        (t.rows.getD i []).getD j Val.missing := by
    intro hv
    rw [← colOf_getD t'.rows j i (hlen' ▸ hi), hrows]
    rw [hv] at hcol
    rw [hcol, colOf_getD t.rows j i hi]
  refine ⟨?_, ?_, ?_⟩
  · intro hne
    cases hv : plan.getD j none with
    | none => exact hnone hv
    | some v =>
      rw [hacc v hv]
      unfold fillCell
      rw [if_neg (by simpa using hne)]
  · intro hdt hmiss m hm
    unfold fillValueFor at hfv
    rw [hdt] at hfv
    simp only [if_true] at hfv
    have hplanj : plan.getD j none = some (Val.num m) := by
      have := Except.ok.inj hfv
      rw [← this, hm]
      rfl
    rw [hacc _ hplanj, hmiss]
    rfl
  · intro hdt hmiss mo hm
    unfold fillValueFor at hfv
    rw [hdt] at hfv
    simp only [Bool.false_eq_true, if_false] at hfv
    rw [hm] at hfv
    have hplanj : plan.getD j none = some mo := (Except.ok.inj hfv).symm
    rw [hacc _ hplanj, hmiss]
    rfl

theorem c3_central_fill_cells_witness :
    median (numsOf (colOf tC3.rows 0)) = some 2 ∧
    (((tC3.rows.getD 2 []).getD 0 Val.missing ≠ Val.missing →
      (tC3f.rows.getD 2 []).getD 0 Val.missing = (tC3.rows.getD 2 []).getD 0 Val.missing) ∧
    ((tC3.headers.getD 0 ("", Dtype.object)).2.isNumeric = true →
      (tC3.rows.getD 2 []).getD 0 Val.missing = Val.missing →
      ∀ m : ℚ, median (numsOf (colOf tC3.rows 0)) = some m →
        (tC3f.rows.getD 2 []).getD 0 Val.missing = Val.num m) ∧
    ((tC3.headers.getD 0 ("", Dtype.object)).2.isNumeric = false →
      (tC3.rows.getD 2 []).getD 0 Val.missing = Val.missing →
      ∀ mo : Val, modeFirst (colOf tC3.rows 0) = some mo →
        (tC3f.rows.getD 2 []).getD 0 Val.missing = mo)) := by
  have hwf : tC3.wf := by
    intro r hr
    have hc : r = [Val.num 1, Val.str "a"] ∨ r = [Val.num 2, Val.missing] ∨
        r = [Val.missing, Val.str "b"] ∨ r = [Val.num 4, Val.str "a"] := by
      simpa [tC3] using hr
    rcases hc with h | h | h | h <;> subst h <;> rfl
  exact ⟨by decide,
    c3_central_fill_cells tC3 tC3f 0 2 hwf (by decide) (by decide) (by decide)⟩

theorem mem_insertSorted {α : Type} (le : α → α → Bool) (y : α) :
    ∀ (l : List α) (x : α), x ∈ insertSorted le y l ↔ x = y ∨ x ∈ l := by
  intro l
  induction l with
  | nil => intro x; simp [insertSorted]
  | cons a l ih =>
    intro x
    unfold insertSorted
    cases le y a with
    | true => simp
    | false =>
      simp only [Bool.false_eq_true, if_false, List.mem_cons, ih]
      constructor
      · rintro (h | h | h)
        · exact Or.inr (Or.inl h)
        · exact Or.inl h
        · exact Or.inr (Or.inr h)
      · rintro (h | h | h)
        · exact Or.inr (Or.inl h)
        · exact Or.inl h
        · exact Or.inr (Or.inr h)

theorem mem_sortBy {α : Type} (le : α → α → Bool) :
    ∀ (l : List α) (x : α), x ∈ sortBy le l ↔ x ∈ l := by
  intro l
  induction l with
  | nil => intro x; rfl
  | cons a l ih =>
    intro x
    unfold sortBy
    rw [mem_insertSorted, ih, List.mem_cons]

theorem insertSorted_length {α : Type} (le : α → α → Bool) (y : α) :
    ∀ (l : List α), (insertSorted le y l).length = l.length + 1 := by
  intro l
  induction l with
  | nil => rfl
  | cons a l ih =>
    unfold insertSorted
    cases le y a with
    | true => simp
    | false => simp [ih]

theorem sortBy_length {α : Type} (le : α → α → Bool) :
    ∀ (l : List α), (sortBy le l).length = l.length := by
  intro l
  induction l with
  | nil => rfl
  | cons a l ih =>
    show (insertSorted le a (sortBy le l)).length = l.length + 1
    rw [insertSorted_length, ih]

theorem median_isSome_of_ne_nil (l : List ℚ) (h : l ≠ []) :
    ∃ m, median l = some m := by
  have hpos : 0 < (sortBy (fun a b => decide (a ≤ b)) l).length := by
    rw [sortBy_length]
    exact List.length_pos.mpr h
  simp only [median]
  generalize hg : sortBy (fun a b => decide (a ≤ b)) l = s at hpos
  cases hsl : s.length with
  | zero => omega
  | succ n =>
    simp only [hsl]
    by_cases hodd : (n + 1) % 2 = 1
    · rw [if_pos hodd]
      have hlt : (n + 1) / 2 < s.length := by omega
      rw [List.get?_eq_getElem?, List.getElem?_eq_getElem hlt]
      exact ⟨_, rfl⟩
    · rw [if_neg hodd]
      have h1 : (n + 1) / 2 - 1 < s.length := by omega
      have h2 : (n + 1) / 2 < s.length := by omega
      rw [List.get?_eq_getElem?, List.getElem?_eq_getElem h1,
        List.get?_eq_getElem?, List.getElem?_eq_getElem h2]
      exact ⟨_, rfl⟩

theorem numsOf_ne_nil_of_mem {cells : List Val} {q : ℚ}
    (h : Val.num q ∈ cells) : numsOf cells ≠ [] := by
  have : q ∈ numsOf cells := List.mem_filterMap.mpr ⟨Val.num q, h, rfl⟩
  intro he
  rw [he] at this
  exact absurd this (List.not_mem_nil q)

theorem modeFirst_some_ne_missing {cells : List Val} {mo : Val}
    (h : modeFirst cells = some mo) : mo ≠ Val.missing := by
  simp only [modeFirst] at h
  have hmem : mo ∈ sortBy valLe (dedupFirst [] ((cells.filter (fun v => v != Val.missing)).filter
      (fun v => ((cells.filter (fun w => w != Val.missing)).filter (fun w => w == v)).length ==
        ((cells.filter (fun w => w != Val.missing)).map
          (fun v => ((cells.filter (fun w => w != Val.missing)).filter (fun w => w == v)).length)).foldl max 0))) :=
    List.mem_of_mem_head? h
  rw [mem_sortBy] at hmem
  have hmem2 := (mem_dedupFirst _ _ mo).mp hmem
  rcases List.mem_filter.mp hmem2.1 with ⟨hmem3, _⟩
  rcases List.mem_filter.mp hmem3 with ⟨_, hne⟩
  simpa using hne

theorem modeFirst_isSome_of_nonmissing {cells : List Val} {v0 : Val}
    (hv0 : v0 ∈ cells) (hne : v0 ≠ Val.missing) :
    ∃ mo, modeFirst cells = some mo := by
  simp only [modeFirst]
  set nn := cells.filter (fun v => v != Val.missing) with hnn
  have hv0nn : v0 ∈ nn := by
    rw [hnn]
    exact List.mem_filter.mpr ⟨hv0, by simpa using hne⟩
  set cnt := fun v => (nn.filter (fun w => w == v)).length with hcnt
  set maxc := (nn.map cnt).foldl max 0 with hmaxc
  have hle : ∀ x ∈ nn.map cnt, x ≤ maxc := by
    rw [hmaxc]
    intro x hx
    have haux : ∀ (l : List Nat) (a : Nat), a ≤ l.foldl max a := by
      intro l
      induction l with
      | nil => exact fun a => Nat.le_refl a
      | cons b l ih =>
        intro a
        rw [List.foldl_cons]
        calc a ≤ max a b := Nat.le_max_left a b
          _ ≤ l.foldl max (max a b) := ih (max a b)
    have haux2 : ∀ (l : List Nat) (a x : Nat), x ∈ l → x ≤ l.foldl max a := by
      intro l
      induction l with
      | nil => intro a x hx; simp at hx
      | cons b l ih =>
        intro a x hx
        rw [List.foldl_cons]
        rcases List.mem_cons.mp hx with he | hm
        · subst he
          calc x ≤ max a x := Nat.le_max_right a x
            _ ≤ l.foldl max (max a x) := haux l (max a x)
        · exact ih (max a b) x hm
    exact haux2 (nn.map cnt) 0 x hx
  have hattain : maxc ∈ nn.map cnt ∨ maxc = 0 := by
    rw [hmaxc]
    have haux : ∀ (l : List Nat) (a : Nat), l.foldl max a ∈ l ∨ l.foldl max a = a := by
      intro l
      induction l with
      | nil => exact fun a => Or.inr rfl
      | cons b l ih =>
        intro a
        rw [List.foldl_cons]
        rcases ih (max a b) with h | h
        · exact Or.inl (List.mem_cons_of_mem _ h)
        · rw [h]
          rcases Nat.le_total a b with hab | hba
          · rw [Nat.max_eq_right hab]
            exact Or.inl (List.mem_cons_self b l)
          · rw [Nat.max_eq_left hba]
            exact Or.inr rfl
    exact haux (nn.map cnt) 0
  have hc0 : 0 < cnt v0 := by
    rw [hcnt]
    have : v0 ∈ nn.filter (fun w => w == v0) :=
      List.mem_filter.mpr ⟨hv0nn, by simp⟩
    exact List.length_pos.mpr (List.ne_nil_of_mem this)
  have hmaxpos : 0 < maxc := by
    have := hle (cnt v0) (List.mem_map.mpr ⟨v0, hv0nn, rfl⟩)
    omega
  have hmaxmem : maxc ∈ nn.map cnt := by
    rcases hattain with h | h
    · exact h
    · omega
  rcases List.mem_map.mp hmaxmem with ⟨w, hw, hwe⟩
  have hwfil : w ∈ nn.filter (fun v => cnt v == maxc) :=
    List.mem_filter.mpr ⟨hw, by simp [hwe]⟩
  have hwd : w ∈ dedupFirst [] (nn.filter (fun v => cnt v == maxc)) :=
    (mem_dedupFirst _ _ w).mpr ⟨hwfil, by simp⟩
  have hws : w ∈ sortBy valLe (dedupFirst [] (nn.filter (fun v => cnt v == maxc))) :=
    (mem_sortBy valLe _ w).mpr hwd
  cases hsl : sortBy valLe (dedupFirst [] (nn.filter (fun v => cnt v == maxc))) with
  | nil => rw [hsl] at hws; exact absurd hws (List.not_mem_nil w)
  | cons m ms => exact ⟨m, rfl⟩

theorem applyFills_no_missing (plan : List (Option Val)) (t : Table)
    (hwf : t.wf) (hplen : plan.length = t.headers.length)
    (hplan : ∀ k, k < plan.length → ∃ v, plan.getD k none = some v ∧ v ≠ Val.missing) :
    ∀ r ∈ applyFills plan t.rows, Val.missing ∉ r := by
  intro r' hr' hmem
  rcases List.mem_iff_getElem.mp hmem with ⟨pos, hpos, hcell⟩
  rcases List.mem_iff_getElem.mp hr' with ⟨i, hi, hre⟩
  rcases foldl_fillStep_rowlen plan _ t.rows r' hr' with ⟨r0, hr0, hlen0⟩
  have hposh : pos < t.headers.length := by
    rw [← hwf r0 hr0, ← hlen0]
    exact hpos
  have hilen : i < t.rows.length := by
    rw [← applyFills_length plan t.rows]
    exact hi
  have hwfpos : ∀ r ∈ t.rows, pos < r.length := fun r hr => (hwf r hr) ▸ hposh
  have hcol := applyFills_colOf plan t.rows pos (hplen ▸ hposh) hwfpos
  rcases hplan pos (hplen ▸ hposh) with ⟨v, hv, hvne⟩
  rw [hv] at hcol
  have hgd : (applyFills plan t.rows).getD i [] = r' := by
    rw [List.getD_eq_getElem?_getD, List.getElem?_eq_getElem hi, hre]
    rfl
  have hcell' : (colOf (applyFills plan t.rows) pos).getD i Val.missing = Val.missing := by
    rw [colOf_getD _ pos i hi, hgd, List.getD_eq_getElem?_getD,
      List.getElem?_eq_getElem hpos, hcell]
    rfl
  rw [hcol, getD_map_lt _ _ i Val.missing Val.missing
    (by rw [colOf_length]; exact hilen)] at hcell'
  unfold fillCell at hcell'
  by_cases hc : (colOf t.rows pos).getD i Val.missing = Val.missing
  · rw [if_pos (by simpa using hc)] at hcell'
    exact hvne hcell'
  · rw [if_neg (by simpa using hc)] at hcell'
    exact hc hcell'

/-- C7 amended: after the missing-value handling step completes, no
missing values remain — unconditionally for the drop and constant-fill
strategies, and for central-tendency fill provided every int64/float64
column holds at least one number (an all-missing numeric column keeps its
NaNs, and an all-missing non-numeric column makes the step raise instead
of completing). -/
theorem c7_no_missing_after_handling (strat : Strategy) (t t' : Table)
    (hwf : t.wf)
    (h : handleMissing strat t = .ok t')
    (hcentral : strat = Strategy.fillCentral →
      ∀ j, j < t.headers.length →
        (t.headers.getD j ("", Dtype.object)).2.isNumeric = true →
        ∃ q : ℚ, Val.num q ∈ colOf t.rows j) :
    ∀ r ∈ t'.rows, Val.missing ∉ r := by
  cases strat with
  | drop =>
    intro r hr hmem
    rw [handleMissing_drop_rows t t' h] at hr
    rcases List.mem_filter.mp hr with ⟨_, hnc⟩
    have : r.contains Val.missing = true := (contains_eq_true_iff r Val.missing).mpr hmem
    rw [this] at hnc
    simp at hnc
  | fillConstant =>
    have hrows := handleMissing_fillConstant_rows' t t' h
    rw [hrows]
    apply applyFills_no_missing _ t hwf (by simp)
    intro k hk
    have hk' : k < t.headers.length := by simpa using hk
    rw [getD_map_lt _ _ k none ("", Dtype.object) hk']
    cases hdt : (t.headers.getD k ("", Dtype.object)).2.isNumeric with
    | true => exact ⟨Val.num 0, rfl, by simp⟩
    | false => exact ⟨Val.str "Unknown", rfl, by simp⟩
  | fillCentral =>
    rcases handleMissing_fillCentral_rows t t' h with ⟨plan, hp, hrows⟩
    rw [hrows]
    have hplen : plan.length = t.headers.length := by
      have := (mapM_ok_forall₂ (fillValueFor t) hp).length_eq
      simpa using this.symm
    apply applyFills_no_missing plan t hwf hplen
    intro k hk
    have hk' : k < t.headers.length := hplen ▸ hk
    have hfv := (fillCentral_plan_at t plan k hp hk').2
    unfold fillValueFor at hfv
    cases hdt : (t.headers.getD k ("", Dtype.object)).2.isNumeric with
    | true =>
      rw [hdt] at hfv
      simp only [if_true] at hfv
      rcases hcentral rfl k hk' hdt with ⟨q, hq⟩
      rcases median_isSome_of_ne_nil _ (numsOf_ne_nil_of_mem hq) with ⟨m, hm⟩
      have : plan.getD k none = some (Val.num m) := by
        have := Except.ok.inj hfv
        rw [← this, hm]
        rfl
      exact ⟨Val.num m, this, by simp⟩
    | false =>
      rw [hdt] at hfv
      simp only [Bool.false_eq_true, if_false] at hfv
      cases hmo : modeFirst (colOf t.rows k) with
      | none => rw [hmo] at hfv; simp at hfv
      | some mo =>
        rw [hmo] at hfv
        exact ⟨mo, (Except.ok.inj hfv).symm, modeFirst_some_ne_missing hmo⟩

theorem c7_no_missing_after_handling_witness :
    Val.missing ∉ tC3f.rows.getD 1 [] ∧ Val.missing ∉ tC3f.rows.getD 2 [] := by
  have h : ∀ r ∈ tC3f.rows, Val.missing ∉ r := by
    apply c7_no_missing_after_handling Strategy.fillCentral tC3 tC3f
    · intro r hr
      have hc : r = [Val.num 1, Val.str "a"] ∨ r = [Val.num 2, Val.missing] ∨
          r = [Val.missing, Val.str "b"] ∨ r = [Val.num 4, Val.str "a"] := by
        simpa [tC3] using hr
      rcases hc with h | h | h | h <;> subst h <;> rfl
    · decide
    · intro _ j hj hdt
      have hj2 : j < 2 := by simpa [tC3] using hj
      interval_cases j
      · exact ⟨1, by decide⟩
      · exact absurd hdt (by decide)
  exact ⟨h _ (by decide), h _ (by decide)⟩

theorem colOf_map_set_ne (rows : List (List Val)) (jd jp : Nat)
    (f : List Val → Val) (h : jd ≠ jp) :
    colOf (rows.map (fun r => r.set jd (f r))) jp = colOf rows jp := by
  simp only [colOf, List.map_map]
  apply List.map_congr_left
  intro r _
  exact getD_set_ne r jd jp _ _ h

theorem invalidFilter_ok_of_numOrMissing (t : Table) (jp jq : Nat)
    (hjp : t.colIdx "price" = some jp) (hjq : t.colIdx "quantity" = some jq)
    (hp : ∀ v ∈ colOf t.rows jp, numOrMissing v = true)
    (hq : ∀ v ∈ colOf t.rows jq, numOrMissing v = true) :
    ∃ t' c, invalidFilter t = .ok (t', c) := by
  have hbad : invalidBadMask t jp jq = .ok (List.zipWith or
      ((colOf t.rows jp).map (cmpCell (fun q => decide (q < 0))))
      ((colOf t.rows jq).map (cmpCell (fun q => decide (q ≤ 0))))) := by
    unfold invalidBadMask
    rw [seriesCmp_ok_of_noStr _ hp]
    simp only [Except.bind, bind]
    rw [seriesCmp_ok_of_noStr _ hq]
  have hkeep : invalidKeepMask t jp jq = .ok (List.zipWith and
      ((colOf t.rows jp).map (cmpCell (fun q => decide (0 ≤ q))))
      ((colOf t.rows jq).map (cmpCell (fun q => decide (0 < q))))) := by
    unfold invalidKeepMask
    rw [seriesCmp_ok_of_noStr _ hp]
    simp only [Except.bind, bind]
    rw [seriesCmp_ok_of_noStr _ hq]
  unfold invalidFilter
  rw [hjp, hjq]
  simp only
  rw [hbad]
  simp only [Except.bind, bind]
  rw [hkeep]
  exact ⟨_, _, rfl⟩

theorem cleanPipeline_ok_of_steps (strat : Strategy) (t t1 t3 t4 : Table) (c : Nat)
    (h1 : toDatetimeCol t = .ok t1)
    (h3 : handleMissing strat (dropDups t1) = .ok t3)
    (h4 : invalidFilter t3 = .ok (t4, c)) :
    cleanPipeline strat t =
      .ok (t4, t1.rows.length - (dropDups t1).rows.length, c) := by
  unfold cleanPipeline
  rw [h1]
  simp only [Except.bind, bind]
  rw [h3]
  simp only [Except.bind, bind]
  rw [h4]

theorem colIdx_of_names_eq (t1 t2 : Table) (n : String)
    (h : t1.names = t2.names) : t1.colIdx n = t2.colIdx n := by
  rw [colIdx_names, colIdx_names, h]

/-- C8 amended: a date-coercion failure becomes a missing value rather
than raising, but the pipeline is not exception-free for every input:
a missing `order_date`/`price`/`quantity` column raises `KeyError`, and
central-tendency fill raises on an all-missing non-numeric column.
Under the drop or constant-fill strategies, with `order_date` present and
int64/float64 `price` and `quantity` columns holding only numbers or
NaNs, the pipeline completes without raising. -/
theorem c8_parse_coerces_and_pipeline_ok (strat : Strategy) (t : Table) (jp jq : Nat)
    (hwf : t.wf)
    (hstrat : strat = Strategy.drop ∨ strat = Strategy.fillConstant)
    (hod : "order_date" ∈ t.names)
    (hjp : t.colIdx "price" = some jp) (hjq : t.colIdx "quantity" = some jq)
    (hdp : (t.headers.getD jp ("", Dtype.object)).2.isNumeric = true)
    (hdq : (t.headers.getD jq ("", Dtype.object)).2.isNumeric = true)
    (hnum : ∀ r ∈ t.rows, numOrMissing (r.getD jp Val.missing) = true ∧
                          numOrMissing (r.getD jq Val.missing) = true) :
    (∀ v, parseDate v = Val.missing ∨ ∃ q : ℚ, parseDate v = Val.num q) ∧
    ∃ res, cleanPipeline strat t = .ok res := by
  constructor
  · intro v
    cases v with
    | num q => exact Or.inr ⟨q, rfl⟩
    | missing => exact Or.inl rfl
    | str s =>
      cases hsn : strToNat s with
      | some n => exact Or.inr ⟨(n : ℚ), by simp [parseDate, hsn]⟩
      | none => exact Or.inl (by simp [parseDate, hsn])
  · have hex : ∃ p ∈ t.headers, (p.1 == "order_date") = true := by
      rcases List.mem_map.mp hod with ⟨p, hp, he⟩
      exact ⟨p, hp, by simp [he]⟩
    have hjd : t.colIdx "order_date" =
        some (t.headers.findIdx (fun p => p.1 == "order_date")) :=
      List.findIdx?_eq_some_of_exists hex
    set jd := t.headers.findIdx (fun p => p.1 == "order_date") with hjddef
    set t1 : Table :=
      { headers := t.headers.set jd ("order_date", Dtype.datetime64),
        rows := t.rows.map (fun r => r.set jd (parseDate (r.getD jd Val.missing))) }
      with ht1
    have h1 : toDatetimeCol t = .ok t1 := by
      unfold toDatetimeCol
      rw [hjd]
    have hnamejd : (t.headers.getD jd ("", Dtype.object)).1 = "order_date" :=
      (colIdx_some_name t _ jd hjd).2
    have hnamejp : (t.headers.getD jp ("", Dtype.object)).1 = "price" :=
      (colIdx_some_name t _ jp hjp).2
    have hnamejq : (t.headers.getD jq ("", Dtype.object)).1 = "quantity" :=
      (colIdx_some_name t _ jq hjq).2
    have hjdjp : jd ≠ jp := by
      intro he
      rw [he, hnamejp] at hnamejd
      simp at hnamejd
    have hjdjq : jd ≠ jq := by
      intro he
      rw [he, hnamejq] at hnamejd
      simp at hnamejd
    have hn1 : t1.names = t.names := (toDatetimeCol_ok_names t t1 h1).1
    have hcp1 : t1.colIdx "price" = some jp := by
      rw [colIdx_of_names_eq t1 t _ hn1]
      exact hjp
    have hcq1 : t1.colIdx "quantity" = some jq := by
      rw [colIdx_of_names_eq t1 t _ hn1]
      exact hjq
    have hd1p : (t1.headers.getD jp ("", Dtype.object)).2.isNumeric = true := by
      rw [ht1]
      show ((t.headers.set jd _).getD jp _).2.isNumeric = true
      rw [getD_set_ne _ _ _ _ _ hjdjp]
      exact hdp
    have hd1q : (t1.headers.getD jq ("", Dtype.object)).2.isNumeric = true := by
      rw [ht1]
      show ((t.headers.set jd _).getD jq _).2.isNumeric = true
      rw [getD_set_ne _ _ _ _ _ hjdjq]
      exact hdq
    have hcells1p : ∀ v ∈ colOf t1.rows jp, numOrMissing v = true := by
      intro v hv
      rw [ht1] at hv
      rw [colOf_map_set_ne _ _ _ _ hjdjp] at hv
      rcases mem_colOf hv with ⟨r, hr, he⟩
      rw [he]
      exact (hnum r hr).1
    have hcells1q : ∀ v ∈ colOf t1.rows jq, numOrMissing v = true := by
      intro v hv
      rw [ht1] at hv
      rw [colOf_map_set_ne _ _ _ _ hjdjq] at hv
      rcases mem_colOf hv with ⟨r, hr, he⟩
      rw [he]
      exact (hnum r hr).2
    have hwf1 : t1.wf := by
      intro r' hr'
      rw [ht1] at hr'
      rcases List.mem_map.mp hr' with ⟨r, hr, he⟩
      rw [← he]
      show (r.set jd _).length = (t.headers.set jd _).length
      rw [List.length_set, List.length_set]
      exact hwf r hr
    set t2 := dropDups t1 with ht2
    have hsub2 : ∀ r ∈ t2.rows, r ∈ t1.rows := by
      intro r hr
      exact (dedupFirst_sublist [] t1.rows).subset hr
    have hwf2 : t2.wf := by
      intro r hr
      exact hwf1 r (hsub2 r hr)
    have hcells2p : ∀ v ∈ colOf t2.rows jp, numOrMissing v = true := by
      intro v hv
      rcases mem_colOf hv with ⟨r, hr, he⟩
      rw [he]
      exact hcells1p _ (List.mem_map.mpr ⟨r, hsub2 r hr, rfl⟩)
    have hcells2q : ∀ v ∈ colOf t2.rows jq, numOrMissing v = true := by
      intro v hv
      rcases mem_colOf hv with ⟨r, hr, he⟩
      rw [he]
      exact hcells1q _ (List.mem_map.mpr ⟨r, hsub2 r hr, rfl⟩)
    have hhead2 : t2.headers = t1.headers := rfl
    have hcp2 : t2.colIdx "price" = some jp := hcp1
    have hcq2 : t2.colIdx "quantity" = some jq := hcq1
    rcases hstrat with hs | hs <;> subst hs
    · -- drop strategy
      set t3 : Table :=
        { t2 with rows := t2.rows.filter (fun r => !(r.contains Val.missing)) }
        with ht3
      have h3 : handleMissing Strategy.drop t2 = .ok t3 := rfl
      have hcells3p : ∀ v ∈ colOf t3.rows jp, numOrMissing v = true := by
        intro v hv
        rcases mem_colOf hv with ⟨r, hr, he⟩
        rw [he]
        have hr2 : r ∈ t2.rows := (List.filter_sublist t2.rows).subset hr
        exact hcells2p _ (List.mem_map.mpr ⟨r, hr2, rfl⟩)
      have hcells3q : ∀ v ∈ colOf t3.rows jq, numOrMissing v = true := by
        intro v hv
        rcases mem_colOf hv with ⟨r, hr, he⟩
        rw [he]
        have hr2 : r ∈ t2.rows := (List.filter_sublist t2.rows).subset hr
        exact hcells2q _ (List.mem_map.mpr ⟨r, hr2, rfl⟩)
      rcases invalidFilter_ok_of_numOrMissing t3 jp jq hcp2 hcq2 hcells3p hcells3q with
        ⟨t4, c, h4⟩
      exact ⟨_, cleanPipeline_ok_of_steps Strategy.drop t t1 t3 t4 c h1 h3 h4⟩
    · -- constant-fill strategy
      set plan := t2.headers.map (fun p =>
        some (if p.2.isNumeric then Val.num 0 else Val.str "Unknown")) with hplan
      set t3 : Table := { t2 with rows := applyFills plan t2.rows } with ht3
      have h3 : handleMissing Strategy.fillConstant t2 = .ok t3 := rfl
      have hjplt2 : jp < t2.headers.length := (colIdx_some_name t2 _ jp hcp2).1
      have hjqlt2 : jq < t2.headers.length := (colIdx_some_name t2 _ jq hcq2).1
      have hplanp : plan.getD jp none = some (Val.num 0) := by
        rw [hplan, getD_map_lt _ _ jp none ("", Dtype.object) hjplt2]
        rw [hhead2, hd1p]
        rfl
      have hplanq : plan.getD jq none = some (Val.num 0) := by
        rw [hplan, getD_map_lt _ _ jq none ("", Dtype.object) hjqlt2]
        rw [hhead2, hd1q]
        rfl
      have hcolp := applyFills_colOf plan t2.rows jp
        (by rw [hplan]; simpa using hjplt2)
        (fun r hr => (hwf2 r hr) ▸ hjplt2)
      have hcolq := applyFills_colOf plan t2.rows jq
        (by rw [hplan]; simpa using hjqlt2)
        (fun r hr => (hwf2 r hr) ▸ hjqlt2)
      rw [hplanp] at hcolp
      rw [hplanq] at hcolq
      have hcells3p : ∀ v ∈ colOf t3.rows jp, numOrMissing v = true := by
        intro v hv
        rw [ht3] at hv
        show numOrMissing v = true
        rw [show t3.rows = applyFills plan t2.rows from rfl] at hv
        rw [hcolp] at hv
        rcases List.mem_map.mp hv with ⟨c0, hc0, he⟩
        have := hcells2p c0 hc0
        cases c0 with
        | num p => rw [← he]; rfl
        | str s => simp [numOrMissing] at this
        | missing => rw [← he]; rfl
      have hcells3q : ∀ v ∈ colOf t3.rows jq, numOrMissing v = true := by
        intro v hv
        rw [ht3] at hv
        rw [show t3.rows = applyFills plan t2.rows from rfl] at hv
        rw [hcolq] at hv
        rcases List.mem_map.mp hv with ⟨c0, hc0, he⟩
        have := hcells2q c0 hc0
        cases c0 with
        | num p => rw [← he]; rfl
        | str s => simp [numOrMissing] at this
        | missing => rw [← he]; rfl
      rcases invalidFilter_ok_of_numOrMissing t3 jp jq hcp2 hcq2 hcells3p hcells3q with
        ⟨t4, c, h4⟩
      exact ⟨_, cleanPipeline_ok_of_steps Strategy.fillConstant t t1 t3 t4 c h1 h3 h4⟩

theorem c8_parse_coerces_and_pipeline_ok_witness :
    (∀ v, parseDate v = Val.missing ∨ ∃ q : ℚ, parseDate v = Val.num q) ∧
    ∃ res, cleanPipeline Strategy.drop tFull = .ok res := by
  have hwf : tFull.wf := by
    intro r hr
    have hc : r = [Val.str "20240101", Val.num 5, Val.num 2, Val.str "a"] ∨
        r = [Val.str "20240101", Val.num 5, Val.num 2, Val.str "a"] ∨
        r = [Val.str "bad", Val.missing, Val.num 1, Val.str "b"] ∨
        r = [Val.str "20240102", Val.num 3, Val.missing, Val.missing] := by
      simpa [tFull] using hr
    rcases hc with h | h | h | h <;> subst h <;> rfl
  have hnum : ∀ r ∈ tFull.rows, numOrMissing (r.getD 1 Val.missing) = true ∧
      numOrMissing (r.getD 2 Val.missing) = true := by
    intro r hr
    have hc : r = [Val.str "20240101", Val.num 5, Val.num 2, Val.str "a"] ∨
        r = [Val.str "20240101", Val.num 5, Val.num 2, Val.str "a"] ∨
        r = [Val.str "bad", Val.missing, Val.num 1, Val.str "b"] ∨
        r = [Val.str "20240102", Val.num 3, Val.missing, Val.missing] := by
      simpa [tFull] using hr
    rcases hc with h | h | h | h <;> subst h <;> exact ⟨rfl, rfl⟩
  exact c8_parse_coerces_and_pipeline_ok Strategy.drop tFull 1 2 hwf
    (Or.inl rfl) (by decide) (by decide) (by decide) (by decide) (by decide) hnum

theorem foldl_maxVal_num :
    ∀ (l : List Val) (a : ℚ), (∀ v ∈ l, ∃ q : ℚ, v = Val.num q) →
      ∃ M : ℚ, l.foldl (fun acc v => match acc with
          | none => some v
          | some x => some (if valLe x v then v else x)) (some (Val.num a)) =
        some (Val.num M) ∧ (M = a ∨ Val.num M ∈ l) ∧ a ≤ M ∧
        ∀ q : ℚ, Val.num q ∈ l → q ≤ M := by
  intro l
  induction l with
  | nil =>
    intro a _
    exact ⟨a, rfl, Or.inl rfl, le_refl a, by simp⟩
  | cons v vs ih =>
    intro a hall
    rcases hall v (List.mem_cons_self v vs) with ⟨b, hb⟩
    subst hb
    rw [List.foldl_cons]
    have hstep : (if valLe (Val.num a) (Val.num b) then Val.num b else Val.num a) =
        Val.num (max a b) := by
      by_cases hab : a ≤ b
      · rw [if_pos (by simpa [valLe] using hab), max_eq_right hab]
      · rw [if_neg (by simpa [valLe] using hab),
          max_eq_left (le_of_not_le hab)]
    rw [show (match some (Val.num a) with
        | none => some (Val.num b)
        | some x => some (if valLe x (Val.num b) then Val.num b else x)) =
          some (Val.num (max a b)) from congrArg some hstep]
    rcases ih (max a b) (fun w hw => hall w (List.mem_cons_of_mem _ hw)) with
      ⟨M, hM, hmem, hle, hub⟩
    refine ⟨M, hM, ?_, le_trans (le_max_left a b) hle, ?_⟩
    · rcases hmem with he | hm
      · rcases le_total a b with hab | hba
        · rw [he, max_eq_right hab]
          exact Or.inr (List.mem_cons_self _ _)
        · rw [he, max_eq_left hba]
          exact Or.inl rfl
      · exact Or.inr (List.mem_cons_of_mem _ hm)
    · intro q hq
      rcases List.mem_cons.mp hq with he | hm
      · have hqb : q = b := Val.num.inj he
        rw [hqb]
        exact le_trans (le_max_right a b) hle
      · exact hub q hm

theorem foldl_minVal_num :
    ∀ (l : List Val) (a : ℚ), (∀ v ∈ l, ∃ q : ℚ, v = Val.num q) →
      ∃ M : ℚ, l.foldl (fun acc v => match acc with
          | none => some v
          | some x => some (if valLe v x then v else x)) (some (Val.num a)) =
        some (Val.num M) ∧ (M = a ∨ Val.num M ∈ l) ∧ M ≤ a ∧
        ∀ q : ℚ, Val.num q ∈ l → M ≤ q := by
  intro l
  induction l with
  | nil =>
    intro a _
    exact ⟨a, rfl, Or.inl rfl, le_refl a, by simp⟩
  | cons v vs ih =>
    intro a hall
    rcases hall v (List.mem_cons_self v vs) with ⟨b, hb⟩
    subst hb
    rw [List.foldl_cons]
    have hstep : (if valLe (Val.num b) (Val.num a) then Val.num b else Val.num a) =
        Val.num (min a b) := by
      by_cases hab : b ≤ a
      · rw [if_pos (by simpa [valLe] using hab), min_eq_right hab]
      · rw [if_neg (by simpa [valLe] using hab),
          min_eq_left (le_of_not_le hab)]
    rw [show (match some (Val.num a) with
        | none => some (Val.num b)
        | some x => some (if valLe (Val.num b) x then Val.num b else x)) =
          some (Val.num (min a b)) from congrArg some hstep]
    rcases ih (min a b) (fun w hw => hall w (List.mem_cons_of_mem _ hw)) with
      ⟨M, hM, hmem, hle, hub⟩
    refine ⟨M, hM, ?_, le_trans hle (min_le_left a b), ?_⟩
    · rcases hmem with he | hm
      · rcases le_total b a with hab | hba
        · rw [he, min_eq_right hab]
          exact Or.inr (List.mem_cons_self _ _)
        · rw [he, min_eq_left hba]
          exact Or.inl rfl
      · exact Or.inr (List.mem_cons_of_mem _ hm)
    · intro q hq
      rcases List.mem_cons.mp hq with he | hm
      · have hqb : q = b := Val.num.inj he
        rw [hqb]
        exact le_trans hle (min_le_right a b)
      · exact hub q hm

theorem maxVal_num (g : List Val) (hne : g ≠ [])
    (hall : ∀ v ∈ g, ∃ q : ℚ, v = Val.num q) :
    ∃ M : ℚ, maxVal g = some (Val.num M) ∧ Val.num M ∈ g ∧
      ∀ q : ℚ, Val.num q ∈ g → q ≤ M := by
  have hnn : nonNull g = g := by
    apply List.filter_eq_self.mpr
    intro v hv
    rcases hall v hv with ⟨q, hq⟩
    subst hq
    rfl
  unfold maxVal
  rw [hnn]
  cases g with
  | nil => exact absurd rfl hne
  | cons v vs =>
    rcases hall v (List.mem_cons_self v vs) with ⟨b, hb⟩
    subst hb
    rw [List.foldl_cons]
    rcases foldl_maxVal_num vs b (fun w hw => hall w (List.mem_cons_of_mem _ hw)) with
      ⟨M, hM, hmem, _, hub⟩
    refine ⟨M, hM, ?_, ?_⟩
    · rcases hmem with he | hm
      · rw [he]; exact List.mem_cons_self _ _
      · exact List.mem_cons_of_mem _ hm
    · intro q hq
      rcases List.mem_cons.mp hq with he | hm
      · have hqb : q = b := Val.num.inj he
        subst hqb
        rcases foldl_maxVal_num vs q (fun w hw => hall w (List.mem_cons_of_mem _ hw)) with
          ⟨M', hM', _, hle', _⟩
        rw [hM'] at hM
        have : M' = M := by
          have := Option.some.inj hM
          exact Val.num.inj this
        rw [← this]
        exact hle'
      · exact hub q hm

theorem minVal_num (g : List Val) (hne : g ≠ [])
    (hall : ∀ v ∈ g, ∃ q : ℚ, v = Val.num q) :
    ∃ M : ℚ, minVal g = some (Val.num M) ∧ Val.num M ∈ g ∧
      ∀ q : ℚ, Val.num q ∈ g → M ≤ q := by
  have hnn : nonNull g = g := by
    apply List.filter_eq_self.mpr
    intro v hv
    rcases hall v hv with ⟨q, hq⟩
    subst hq
    rfl
  unfold minVal
  rw [hnn]
  cases g with
  | nil => exact absurd rfl hne
  | cons v vs =>
    rcases hall v (List.mem_cons_self v vs) with ⟨b, hb⟩
    subst hb
    rw [List.foldl_cons]
    rcases foldl_minVal_num vs b (fun w hw => hall w (List.mem_cons_of_mem _ hw)) with
      ⟨M, hM, hmem, _, hub⟩
    refine ⟨M, hM, ?_, ?_⟩
    · rcases hmem with he | hm
      · rw [he]; exact List.mem_cons_self _ _
      · exact List.mem_cons_of_mem _ hm
    · intro q hq
      rcases List.mem_cons.mp hq with he | hm
      · have hqb : q = b := Val.num.inj he
        subst hqb
        rcases foldl_minVal_num vs q (fun w hw => hall w (List.mem_cons_of_mem _ hw)) with
          ⟨M', hM', _, hle', _⟩
        rw [hM'] at hM
        have : M' = M := by
          have := Option.some.inj hM
          exact Val.num.inj this
        rw [← this]
        exact hle'
      · exact hub q hm

/-- C6: the time-series aggregation groups the rows by the calendar date
of `order_date` (rows with an unparseable date are dropped from the
grouping), and per day — with numeric prices — open is the first price in
original row order, high the maximum, low the minimum, and close the last
price in original row order. -/
theorem c6_daily_ohlc (t : Table) (jd jp : Nat) (L : List DailyRow)
    (hjd : t.colIdx "order_date" = some jd) (hjp : t.colIdx "price" = some jp)
    (h : dailyOHLC t = some L)
    (hall : ∀ r ∈ t.rows, ∃ q : ℚ, r.getD jp Val.missing = Val.num q) :
    (∀ d : ℤ, (∃ e ∈ L, e.date = d) ↔
      ∃ r ∈ t.rows, dateOf (r.getD jd Val.missing) = some d) ∧
    ∀ e ∈ L,
      groupPrices t jd jp e.date ≠ [] ∧
      e.open' = (groupPrices t jd jp e.date).head? ∧
      e.close = (groupPrices t jd jp e.date).getLast? ∧
      (∃ M : ℚ, e.high = some (Val.num M) ∧
        Val.num M ∈ groupPrices t jd jp e.date ∧
        ∀ q : ℚ, Val.num q ∈ groupPrices t jd jp e.date → q ≤ M) ∧
      (∃ m : ℚ, e.low = some (Val.num m) ∧
        Val.num m ∈ groupPrices t jd jp e.date ∧
        ∀ q : ℚ, Val.num q ∈ groupPrices t jd jp e.date → m ≤ q) := by
  unfold dailyOHLC at h
  rw [hjd, hjp] at h
  simp only [Option.some.injEq] at h
  set keys := sortBy (fun a b => decide (a ≤ b)) (dedupFirst []
    (t.rows.filterMap (fun r => dateOf (r.getD jd Val.missing)))) with hkeysdef
  have hL : L = keys.map (fun d =>
      { date := d, open' := (nonNull (groupPrices t jd jp d)).head?,
        high := maxVal (groupPrices t jd jp d),
        low := minVal (groupPrices t jd jp d),
        close := (nonNull (groupPrices t jd jp d)).getLast? : DailyRow }) := h.symm
  have hkeys : ∀ d : ℤ, d ∈ keys ↔
      ∃ r ∈ t.rows, dateOf (r.getD jd Val.missing) = some d := by
    intro d
    rw [hkeysdef, mem_sortBy, mem_dedupFirst]
    simp [List.mem_filterMap]
  have hgall : ∀ d : ℤ, ∀ v ∈ groupPrices t jd jp d, ∃ q : ℚ, v = Val.num q := by
    intro d v hv
    unfold groupPrices at hv
    rcases List.mem_map.mp hv with ⟨r, hr, he⟩
    have hrr : r ∈ t.rows := (List.filter_sublist t.rows).subset hr
    rcases hall r hrr with ⟨q, hq⟩
    exact ⟨q, by rw [← he, hq]⟩
  have hgne : ∀ d : ℤ, d ∈ keys → groupPrices t jd jp d ≠ [] := by
    intro d hd
    rcases (hkeys d).mp hd with ⟨r, hr, hfd⟩
    have hrf : r ∈ t.rows.filter
        (fun r => dateOf (r.getD jd Val.missing) == some d) := by
      apply List.mem_filter.mpr
      exact ⟨hr, by rw [hfd]; simp⟩
    have : r.getD jp Val.missing ∈ groupPrices t jd jp d :=
      List.mem_map.mpr ⟨r, hrf, rfl⟩
    exact List.ne_nil_of_mem this
  have hnn : ∀ d : ℤ, nonNull (groupPrices t jd jp d) = groupPrices t jd jp d := by
    intro d
    apply List.filter_eq_self.mpr
    intro v hv
    rcases hgall d v hv with ⟨q, hq⟩
    subst hq
    rfl
  constructor
  · intro d
    constructor
    · rintro ⟨e, he, hdate⟩
      rw [hL] at he
      rcases List.mem_map.mp he with ⟨d', hd', he'⟩
      have : e.date = d' := by rw [← he']
      rw [this] at hdate
      exact (hkeys d).mp (hdate ▸ hd')
    · intro hd
      rw [hL]
      exact ⟨_, List.mem_map.mpr ⟨d, (hkeys d).mpr hd, rfl⟩, rfl⟩
  · intro e he
    rw [hL] at he
    rcases List.mem_map.mp he with ⟨d, hd, he'⟩
    have hdate : e.date = d := by rw [← he']
    rw [hdate]
    have hne := hgne d hd
    have hgall' := hgall d
    refine ⟨hne, ?_, ?_, ?_, ?_⟩
    · rw [← he']
      show (nonNull (groupPrices t jd jp d)).head? = _
      rw [hnn]
    · rw [← he']
      show (nonNull (groupPrices t jd jp d)).getLast? = _
      rw [hnn]
    · rcases maxVal_num _ hne hgall' with ⟨M, hM, hmem, hub⟩
      refine ⟨M, ?_, hmem, hub⟩
      rw [← he']
      exact hM
    · rcases minVal_num _ hne hgall' with ⟨m, hm, hmem, hub⟩
      refine ⟨m, ?_, hmem, hub⟩
      rw [← he']
      exact hm

theorem c6_daily_ohlc_witness :
    dailyOHLC tOhlcExample = some [dOhlcRow] ∧
    ((∀ d : ℤ, (∃ e ∈ [dOhlcRow], e.date = d) ↔
      ∃ r ∈ tOhlcExample.rows, dateOf (r.getD 0 Val.missing) = some d) ∧
    ∀ e ∈ [dOhlcRow],
      groupPrices tOhlcExample 0 1 e.date ≠ [] ∧
      e.open' = (groupPrices tOhlcExample 0 1 e.date).head? ∧
      e.close = (groupPrices tOhlcExample 0 1 e.date).getLast? ∧
      (∃ M : ℚ, e.high = some (Val.num M) ∧
        Val.num M ∈ groupPrices tOhlcExample 0 1 e.date ∧
        ∀ q : ℚ, Val.num q ∈ groupPrices tOhlcExample 0 1 e.date → q ≤ M) ∧
      (∃ m : ℚ, e.low = some (Val.num m) ∧
        Val.num m ∈ groupPrices tOhlcExample 0 1 e.date ∧
        ∀ q : ℚ, Val.num q ∈ groupPrices tOhlcExample 0 1 e.date → m ≤ q)) := by
  have hall : ∀ r ∈ tOhlcExample.rows, ∃ q : ℚ, r.getD 1 Val.missing = Val.num q := by
    intro r hr
    have hc : r = [Val.num 7, Val.num 10] ∨ r = [Val.num 7, Val.num 15] ∨
        r = [Val.num 7, Val.num 8] ∨ r = [Val.num 7, Val.num 12] := by
      simpa [tOhlcExample] using hr
    rcases hc with h | h | h | h <;> subst h <;> exact ⟨_, rfl⟩
  exact ⟨by decide,
    c6_daily_ohlc tOhlcExample 0 1 [dOhlcRow] (by decide) (by decide) (by decide) hall⟩
